import Mathlib

/-!
# Verification of the m3u-content-manager core

Shallow embedding of the repository's streaming M3U parser
(`src/app/api/m3u/parse/route.ts`), M3U generator and download relay
(`src/unnamed/part_000`), with theorems settling the specification claims.

Strings are modelled as `List Char`; JavaScript regular-expression operations
used by the source are modelled as explicit scanning functions with
first-match / greedy-with-backtracking semantics matching the JS engine.
-/

set_option maxRecDepth 100000

/-- Convert a string literal to the `List Char` representation used throughout. -/
def str (s : String) : List Char := s.toList

/-- The JavaScript `\s` character class (also the set trimmed by
`String.prototype.trim`): ASCII whitespace plus the Unicode space separators. -/
def jsIsWs (c : Char) : Bool :=
  c = ' ' || c = '\t' || c = '\n' || c = '\r' || c = '\x0b' || c = '\x0c' ||
  c = ' ' || c = ' ' || c = ' ' || c = ' ' || c = ' ' ||
  c = ' ' || c = ' ' || c = ' ' || c = ' ' || c = ' ' ||
  c = ' ' || c = ' ' || c = ' ' || c = ' ' || c = ' ' ||
  c = ' ' || c = ' ' || c = '　' || c = '﻿'

/-- Characters NOT matched by the JS regex `.` (line terminators). -/
def jsIsTerm (c : Char) : Bool :=
  c = '\n' || c = '\r' || c = ' ' || c = ' '

/-- JavaScript `String.prototype.trim`. -/
def jsTrim (l : List Char) : List Char :=
  ((l.dropWhile jsIsWs).reverse.dropWhile jsIsWs).reverse

/-- JavaScript `String.prototype.startsWith` on char lists. -/
def lstartsWith : List Char → List Char → Bool
  | [], _ => true
  | _ :: _, [] => false
  | p :: ps, c :: cs => p = c && lstartsWith ps cs

/-- JavaScript `String.prototype.endsWith` on char lists. -/
def lendsWith (p l : List Char) : Bool :=
  lstartsWith p.reverse l.reverse

/-- Split on `'\n'` characters, keeping every piece (as `"x\ny".split("\n")`
would, before carriage returns are handled). Never returns `[]`. -/
def splitNl : List Char → List (List Char)
  | [] => [[]]
  | c :: rest =>
    if c = '\n' then [] :: splitNl rest
    else
      match splitNl rest with
      | [] => [[c]]
      | l :: ls => (c :: l) :: ls

/-- Drop a single trailing `'\r'`; composing with `splitNl` on the pieces
before the final one gives exactly JavaScript `split(/\r?\n/)`. -/
def stripCR (l : List Char) : List Char :=
  match l.getLast? with
  | some '\r' => l.dropLast
  | _ => l

/-- Decimal rendering of a natural number, as produced by JS template
interpolation of the channel counter. -/
def natToStr (n : Nat) : List Char := Nat.toDigits 10 n

section Parser

/-- The pending-entry accumulator filled in by `StreamingM3UParser.parseExtInfo`
(the fields of `Partial<M3UChannel>` that the parser assigns). -/
structure ChannelInfo where
  tvgName : List Char
  tvgLogo : Option (List Char)
  tvgId : Option (List Char)
  tvgCountry : Option (List Char)
  tvgLanguage : Option (List Char)
  groupTitle : List Char
  deriving Repr, DecidableEq

/-- The `M3UChannel` record of `route.ts`. -/
structure M3UChannel where
  id : List Char
  tvgName : List Char
  tvgLogo : Option (List Char)
  tvgId : Option (List Char)
  tvgCountry : Option (List Char)
  tvgLanguage : Option (List Char)
  groupTitle : List Char
  url : List Char
  deriving Repr, DecidableEq

/-- First match of the JS regex `key="([^"]*)"` in `s`: scan left to right for
the literal `key="`, then capture the maximal run of non-quote characters,
which must be closed by a `"`.  (If the first occurrence of `key="` has no
closing quote after it there can be no later occurrence either, so failing
there is exactly the JS behaviour.) -/
def findAttr (key : List Char) : List Char → Option (List Char)
  | [] => none
  | c :: rest =>
    if lstartsWith (key ++ ['=', '"']) (c :: rest) then
      let tail := (c :: rest).drop (key.length + 2)
      if '"' ∈ tail then some (tail.takeWhile (fun d => d ≠ '"')) else none
    else findAttr key rest

/-- Match `\s*(.+)$` against all of `s` (greedy whitespace with backtracking;
`.` refuses line terminators); returns the capture. -/
def greedyRest (s : List Char) : Option (List Char) :=
  match s with
  | [] => none
  | c :: rest =>
    if jsIsWs c then
      match greedyRest rest with
      | some r => some r
      | none => if (c :: rest).all (fun d => !jsIsTerm d) then some (c :: rest) else none
    else if (c :: rest).all (fun d => !jsIsTerm d) then some (c :: rest) else none

/-- First match of the JS regex `,\s*(.+)$`: scan for the first comma whose
tail admits the match, returning the capture. -/
def findDisplayName : List Char → Option (List Char)
  | [] => none
  | c :: rest =>
    if c = ',' then
      match greedyRest rest with
      | some r => some r
      | none => findDisplayName rest
    else findDisplayName rest

/-- After the optional sign: `\d+\s*,?\s*` — fails (`none`) when no digit
follows, otherwise drops digits, whitespace, one optional comma and more
whitespace. -/
def stripDurationCore (t : List Char) : Option (List Char) :=
  if t.takeWhile Char.isDigit = [] then none
  else
    let r2 := (t.dropWhile Char.isDigit).dropWhile jsIsWs
    let r3 := match r2 with
      | ',' :: u => u
      | _ => r2
    some (r3.dropWhile jsIsWs)

/-- JS `infoLine.replace(/^(-?\d+)\s*,?\s*/, '')`: strip an optional sign and
leading digits, whitespace, one optional comma, and more whitespace; if the
line does not begin with (optionally signed) digits it is returned
unchanged. -/
def stripDuration (s : List Char) : List Char :=
  match s with
  | '-' :: t =>
    match stripDurationCore t with
    | some r => r
    | none => s
  | _ =>
    match stripDurationCore s with
    | some r => r
    | none => s

/-- JS falsy-or for strings: `a || b`. -/
def jsOr (a b : List Char) : List Char := if a = [] then b else a

/-- JS falsy-or where the first operand is an optional capture:
`m?.[1] || b`. -/
def jsOrOpt (a : Option (List Char)) (b : List Char) : List Char :=
  match a with
  | some v => if v = [] then b else v
  | none => b

/-- `StreamingM3UParser.parseExtInfo`, applied to the text after the
`#EXTINF:` prefix. -/
def parseExtInfo (infoLine : List Char) : ChannelInfo :=
  let rest := stripDuration infoLine
  let displayName :=
    match findDisplayName rest with
    | some r => jsTrim r
    | none => str "Unknown"
  { tvgName := jsOr displayName (jsOrOpt (findAttr (str "tvg-name") rest) (str "Unknown"))
    tvgLogo := findAttr (str "tvg-logo") rest
    tvgId := findAttr (str "tvg-id") rest
    tvgCountry := findAttr (str "tvg-country") rest
    tvgLanguage := findAttr (str "tvg-language") rest
    groupTitle := jsOrOpt (findAttr (str "group-title") rest) (str "Other") }

/-- Mutable state of one `StreamingM3UParser` instance. -/
structure ParserState where
  channels : List M3UChannel
  currentInfo : Option ChannelInfo
  buffer : List Char
  channelId : Nat
  deriving Repr, DecidableEq

/-- A freshly constructed `StreamingM3UParser`. -/
def initState : ParserState :=
  { channels := [], currentInfo := none, buffer := [], channelId := 0 }

/-- Build the `M3UChannel` pushed when a URL line completes an entry. -/
def mkChannel (info : ChannelInfo) (url : List Char) (n : Nat) : M3UChannel :=
  { id := str "channel-" ++ natToStr n
    tvgName := info.tvgName
    tvgLogo := info.tvgLogo
    tvgId := info.tvgId
    tvgCountry := info.tvgCountry
    tvgLanguage := info.tvgLanguage
    groupTitle := info.groupTitle
    url := url }

/-- The body of the `for (const line of lines)` loop in
`StreamingM3UParser.parse`. -/
def processLine (st : ParserState) (line : List Char) : ParserState :=
  let trimmed := jsTrim line
  if trimmed = [] then st
  else if lstartsWith (str "#EXTM3U") trimmed then st
  else if lstartsWith (str "#EXTINF:") trimmed then
    { st with currentInfo := some (parseExtInfo (trimmed.drop 8)) }
  else if lstartsWith (str "http") trimmed then
    match st.currentInfo with
    | some info =>
      if info.tvgName ≠ [] then
        { st with
          channels := st.channels ++ [mkChannel info trimmed st.channelId]
          currentInfo := none
          channelId := st.channelId + 1 }
      else { st with currentInfo := none }
    | none => { st with currentInfo := none }
  else st

/-- `StreamingM3UParser.parse(chunk)`: append the chunk to the carried buffer,
split off the complete lines (keeping the unterminated tail buffered) and
process them in order. -/
def parseChunk (st : ParserState) (chunk : List Char) : ParserState :=
  let pieces := splitNl (st.buffer ++ chunk)
  let lines := pieces.dropLast.map stripCR
  let st' := lines.foldl processLine st
  { st' with buffer := pieces.getLastD [] }

/-- Feed a sequence of chunks to one parser instance. -/
def feedAll (chunks : List (List Char)) : ParserState :=
  chunks.foldl parseChunk initState

/-- `StreamingM3UParser.finalize()`: complete a trailing URL line if possible
and return the full accumulated channel list. -/
def finalize (st : ParserState) : List M3UChannel :=
  let trimmed := jsTrim st.buffer
  if trimmed ≠ [] then
    if lstartsWith (str "http") trimmed then
      match st.currentInfo with
      | some info =>
        if info.tvgName ≠ [] then st.channels ++ [mkChannel info trimmed st.channelId]
        else st.channels
      | none => st.channels
    else st.channels
  else st.channels

end Parser

section PostEndpoint

/-- Internal state of a WHATWG UTF-8 decoder. -/
structure Utf8DecState where
  codePoint : Nat
  bytesNeeded : Nat
  bytesSeen : Nat
  lower : Nat
  upper : Nat
  deriving Repr, DecidableEq

/-- Fresh decoder state. -/
def utf8Init : Utf8DecState :=
  { codePoint := 0, bytesNeeded := 0, bytesSeen := 0, lower := 0x80, upper := 0xBF }

/-- Handle one byte with `bytesNeeded = 0` (WHATWG UTF-8 decode, start of a
sequence); with `fatal: false` an invalid byte yields U+FFFD. -/
def utf8Start (b : Nat) : Utf8DecState × List Char :=
  if b ≤ 0x7F then (utf8Init, [Char.ofNat b])
  else if 0xC2 ≤ b ∧ b ≤ 0xDF then
    ({ utf8Init with bytesNeeded := 1, codePoint := b - 0xC0 }, [])
  else if 0xE0 ≤ b ∧ b ≤ 0xEF then
    ({ utf8Init with
        bytesNeeded := 2, codePoint := b - 0xE0
        lower := if b = 0xE0 then 0xA0 else 0x80
        upper := if b = 0xED then 0x9F else 0xBF }, [])
  else if 0xF0 ≤ b ∧ b ≤ 0xF4 then
    ({ utf8Init with
        bytesNeeded := 3, codePoint := b - 0xF0
        lower := if b = 0xF0 then 0x90 else 0x80
        upper := if b = 0xF4 then 0x8F else 0xBF }, [])
  else (utf8Init, ['�'])

/-- Run the WHATWG UTF-8 decoder over a byte list.  Ending mid-sequence
produces no output for the held bytes: this is `decode(chunk, {stream: true})`,
whose pending bytes live only in the decoder object.  On an invalid
continuation byte the decoder emits U+FFFD and reprocesses the byte as a
sequence start (`fatal: false`). -/
def utf8Run : Utf8DecState → List Nat → List Char
  | _, [] => []
  | st, b :: bs =>
    if st.bytesNeeded = 0 then
      let p := utf8Start b
      p.2 ++ utf8Run p.1 bs
    else if st.lower ≤ b ∧ b ≤ st.upper then
      let cp := st.codePoint * 64 + (b - 0x80)
      if st.bytesSeen + 1 = st.bytesNeeded then
        Char.ofNat cp :: utf8Run utf8Init bs
      else
        utf8Run { utf8Init with
                    codePoint := cp, bytesNeeded := st.bytesNeeded
                    bytesSeen := st.bytesSeen + 1 } bs
    else
      let p := utf8Start b
      ('�' :: p.2) ++ utf8Run p.1 bs

/-- The byte-chunk pipeline of `POST /api/m3u/parse` (route.ts lines 150-168),
abstracted over the chunk partition: each byte chunk is decoded by a FRESH
`TextDecoder('utf-8', {fatal:false})` (the decoder is constructed inside the
loop, so its pending bytes are dropped between chunks) and fed to one
`StreamingM3UParser`; then `finalize` is called. -/
def pipeline (chunks : List (List Nat)) : List M3UChannel :=
  finalize (chunks.foldl (fun st ck => parseChunk st (utf8Run utf8Init ck)) initState)

/-- Split a byte list into consecutive chunks of `sz` bytes (the POST loop
with `CHUNK_SIZE`); the first argument is recursion fuel. -/
def chunksOfAux (sz : Nat) : Nat → List Nat → List (List Nat)
  | 0, _ => []
  | _, [] => []
  | fuel + 1, l => l.take sz :: chunksOfAux sz fuel (l.drop sz)

/-- 64 KiB chunking as performed by the POST handler. -/
def chunksOf64K (l : List Nat) : List (List Nat) :=
  chunksOfAux 65536 l.length l

/-- One step of the `groupMap` accumulation in POST: a JS `Map.set` keeps the
insertion position of an existing key and appends a new key at the end. -/
def addGroup (acc : List (List Char × Nat)) (name : List Char) :
    List (List Char × Nat) :=
  if acc.any (fun p => p.1 = name) then
    acc.map (fun p => if p.1 = name then (p.1, p.2 + 1) else p)
  else acc ++ [(name, 1)]

/-- `channel.groupTitle || 'Other'` as used when building the group map. -/
def effGroup (ch : M3UChannel) : List Char := jsOr ch.groupTitle (str "Other")

/-- The group summary computed by POST from the final channel list. -/
def computeGroups (channels : List M3UChannel) : List (List Char × Nat) :=
  (channels.map effGroup).foldl addGroup []

/-- The `M3UParseResult` returned by a successful POST. -/
structure M3UParseResult where
  channels : List M3UChannel
  totalChannels : Nat
  groups : List (List Char × Nat)
  deriving Repr, DecidableEq

/-- Categories of client errors returned by the POST handler. -/
inductive PostError where
  | missingFile
  | invalidFormat
  | fileTooLarge
  deriving Repr, DecidableEq

/-- Outcome of `POST /api/m3u/parse`. -/
inductive PostResult where
  | clientError : PostError → PostResult
  | ok : M3UParseResult → PostResult
  deriving Repr, DecidableEq

/-- An uploaded file: its name and its raw bytes. -/
structure UploadFile where
  name : List Char
  content : List Nat
  deriving Repr, DecidableEq

/-- Full parse run of the POST handler on a validated file's bytes. -/
def runPipeline (bytes : List Nat) : M3UParseResult :=
  let channels := pipeline (chunksOf64K bytes)
  { channels := channels
    totalChannels := channels.length
    groups := computeGroups channels }

/-- `POST /api/m3u/parse`: the missing-file, extension and size gates, then
the chunked parse. -/
def postParse (file : Option UploadFile) : PostResult :=
  match file with
  | none => .clientError .missingFile
  | some f =>
    let fileName := f.name.map Char.toLower
    if ¬(lendsWith (str ".m3u") fileName ∨ lendsWith (str ".m3u8") fileName) then
      .clientError .invalidFormat
    else if f.content.length > 50 * 1024 * 1024 then
      .clientError .fileTooLarge
    else .ok (runPipeline f.content)

end PostEndpoint

section Generator

/-- One channel of a `DownloadRequest` (the generator's input); absent
optional fields are the empty string, which is falsy in the JS source. -/
structure GenChannel where
  tvgName : List Char
  tvgLogo : List Char
  tvgId : List Char
  tvgCountry : List Char
  tvgLanguage : List Char
  groupTitle : List Char
  url : List Char
  deriving Repr, DecidableEq

/-- `escapeAttribute`: replace `"` by `'`, strip CR/LF; empty in, empty out. -/
def escapeAttribute (v : List Char) : List Char :=
  if v = [] then []
  else (v.map (fun c => if c = '"' then Char.ofNat 39 else c)).filter
    (fun c => ¬(c = '\r' ∨ c = '\n'))

/-- `escapeValue`: strip CR/LF and trim; empty becomes the literal "Unknown". -/
def escapeValue (v : List Char) : List Char :=
  if v = [] then str "Unknown"
  else jsTrim (v.filter (fun c => ¬(c = '\r' ∨ c = '\n')))

/-- One `key="escaped-value"` block. -/
def attrBlock (key v : List Char) : List Char :=
  key ++ ['=', '"'] ++ escapeAttribute v ++ ['"']

/-- JS `Array.prototype.join(" ")`. -/
def joinSpace : List (List Char) → List Char
  | [] => []
  | [x] => x
  | x :: xs => x ++ ' ' :: joinSpace xs

/-- The `info` array pushed for one channel, in source order, keeping only the
truthy fields. -/
def genInfoList (ch : GenChannel) : List (List Char) :=
  (if ch.tvgName ≠ [] then [attrBlock (str "tvg-name") ch.tvgName] else []) ++
  (if ch.tvgLogo ≠ [] then [attrBlock (str "tvg-logo") ch.tvgLogo] else []) ++
  (if ch.tvgId ≠ [] then [attrBlock (str "tvg-id") ch.tvgId] else []) ++
  (if ch.tvgCountry ≠ [] then [attrBlock (str "tvg-country") ch.tvgCountry] else []) ++
  (if ch.tvgLanguage ≠ [] then [attrBlock (str "tvg-language") ch.tvgLanguage] else []) ++
  (if ch.groupTitle ≠ [] then [attrBlock (str "group-title") ch.groupTitle] else [])

/-- The two lines emitted for one channel. -/
def genEntry (ch : GenChannel) : List Char :=
  str "#EXTINF:-1 " ++ joinSpace (genInfoList ch) ++
    [','] ++ escapeValue ch.tvgName ++ ['\n'] ++ ch.url ++ ['\n']

/-- `generateM3UContent`: the header line then each channel's two lines. -/
def generateM3UContent (channels : List GenChannel) : List Char :=
  str "#EXTM3U\n" ++ (channels.map genEntry).flatten

end Generator

section Relay

/-- Decimal value of a digit string (`Number(p)` for the all-digit parts the
dotted-quad regex admits). -/
def digitsVal (s : List Char) : Nat :=
  s.foldl (fun acc c => acc * 10 + (c.toNat - '0'.toNat)) 0

/-- One component of the regex `^\d{1,3}(\.\d{1,3}){3}$`. -/
def isOctetShape (s : List Char) : Bool :=
  s ≠ [] ∧ s.length ≤ 3 ∧ s.all Char.isDigit

/-- Test of the regex `^\d{1,3}(\.\d{1,3}){3}$`: exactly four dot-separated
runs of one to three digits. -/
def dottedQuadShape (host : List Char) : Bool :=
  let parts := host.splitOn '.'
  parts.length = 4 ∧ parts.all isOctetShape

/-- `isBlockedHostname` from the download route. -/
def isBlockedHostname (hostname : List Char) : Bool :=
  let host := hostname.map Char.toLower
  if host = str "localhost" ∨ host = str "127.0.0.1" ∨ host = str "::1" then true
  else if dottedQuadShape host then
    let parts := (host.splitOn '.').map digitsVal
    if parts.any (fun p => p > 255) then true
    else if parts.getD 0 0 = 10 then true
    else if parts.getD 0 0 = 127 then true
    else if parts.getD 0 0 = 192 ∧ parts.getD 1 0 = 168 then true
    else if parts.getD 0 0 = 172 ∧ 16 ≤ parts.getD 1 0 ∧ parts.getD 1 0 ≤ 31 then true
    else if parts.getD 0 0 = 169 ∧ parts.getD 1 0 = 254 then true
    else if parts.getD 0 0 = 0 then true
    else false
  else false

/-- A parsed target URL as seen by the relay (`new URL(urlParam)` output). -/
structure UrlModel where
  protocol : List Char
  hostname : List Char
  deriving Repr, DecidableEq

/-- Outcome of the relay branch of `GET /api/m3u/download`. -/
inductive RelayOutcome where
  | invalidUrl
  | blockedUrl
  | gatewayError : Nat → RelayOutcome
  | streamed : Nat → RelayOutcome
  deriving Repr, DecidableEq

/-- The relay's gate sequence: scheme check, SSRF hostname check, then the
upstream fetch whose status decides between a 502 gateway error (embedding the
upstream status) and streaming the upstream body through.  `upstreamStatus` is
the status the upstream WOULD answer with; a rejection before the fetch is
independent of it. -/
def relayGET (url : UrlModel) (upstreamStatus : Nat) : RelayOutcome :=
  if ¬(url.protocol = str "http:" ∨ url.protocol = str "https:") then .invalidUrl
  else if isBlockedHostname url.hostname then .blockedUrl
  else if ¬(200 ≤ upstreamStatus ∧ upstreamStatus ≤ 299) ∧ upstreamStatus ≠ 206 then
    .gatewayError upstreamStatus
  else .streamed upstreamStatus

end Relay

section SpecSide

/-!
Definitions used only to STATE properties (derived from the specification's
wording, for comparison against the embedded source functions above).
-/

/-- The entries that `finish` can still complete out of the trailing buffered
content (spec §4.1): one entry when the trailed line is a URL line and a
pending accumulator with a display name exists, none otherwise. -/
def trailingCompletable (st : ParserState) : List M3UChannel :=
  match st.currentInfo with
  | some info =>
    if lstartsWith (str "http") (jsTrim st.buffer) = true ∧ info.tvgName ≠ [] then
      [mkChannel info (jsTrim st.buffer) st.channelId]
    else []
  | none => []

/-- Deduplication keeping the FIRST occurrence of each element, in encounter
order (the key order of a JS `Map` built by repeated `set`). -/
def firstDedup (l : List (List Char)) : List (List Char) :=
  l.foldl (fun acc g => if g ∈ acc then acc else acc ++ [g]) []

/-- The six attribute keys recognised by the parser. -/
def KEYS : List (List Char) :=
  [str "tvg-name", str "tvg-logo", str "tvg-id", str "tvg-country",
   str "tvg-language", str "group-title"]

/-- Value of the first pair with the given key (JS first-match semantics). -/
def lookupPairs (pairs : List (List Char × List Char)) (k : List Char) :
    Option (List Char) :=
  (pairs.find? (fun p => p.1 = k)).map (fun p => p.2)

/-- `key="value"` blocks joined by single spaces, as an attribute list is
emitted on one info line. -/
def blocksJoin (pairs : List (List Char × List Char)) : List Char :=
  joinSpace (pairs.map (fun p => p.1 ++ ['=', '"'] ++ p.2 ++ ['"']))

/-- An optional trailing display-text part, preceded by its comma. -/
def optComma : Option (List Char) → List Char
  | some t => ',' :: t
  | none => []

/-- The text after `#EXTINF:` for an info line carrying the given attribute
pairs and, optionally, a comma followed by trailing display text. -/
def mkInfo (pairs : List (List Char × List Char)) (topt : Option (List Char)) :
    List Char :=
  str "-1 " ++ blocksJoin pairs ++ optComma topt

/-- The display name the parser actually resolves for an info line of shape
`mkInfo pairs topt`: trailing text wins when it trims non-blank; a comma
followed by blank-but-nonempty text falls back to the `tvg-name` attribute;
no comma-match at all (no trailing part, or a bare final comma) yields the
literal "Unknown" even when a name attribute is present. -/
def specDisplayName (pairs : List (List Char × List Char))
    (topt : Option (List Char)) : List Char :=
  match topt with
  | none => str "Unknown"
  | some t =>
    if jsTrim t ≠ [] then jsTrim t
    else if t = [] then str "Unknown"
    else jsOrOpt (lookupPairs pairs (str "tvg-name")) (str "Unknown")

/-- A value safe to embed in the M3U text: no double quote, no comma, no
equals sign and no line terminator. -/
def cleanVal (v : List Char) : Bool :=
  v.all (fun c => ¬(c = '"' ∨ c = ',' ∨ c = '=' ∨ jsIsTerm c))

/-- Hypotheses under which a generated channel round-trips through the
parser: clean attribute values, a non-empty already-trimmed display name, a
non-empty group, and a trimmed URL line with the `http` scheme token and no
newline. -/
def cleanChannel (ch : GenChannel) : Bool :=
  cleanVal ch.tvgName && ch.tvgName ≠ [] && jsTrim ch.tvgName = ch.tvgName &&
  cleanVal ch.tvgLogo && cleanVal ch.tvgId && cleanVal ch.tvgCountry &&
  cleanVal ch.tvgLanguage && cleanVal ch.groupTitle && ch.groupTitle ≠ [] &&
  lstartsWith (str "http") ch.url && jsTrim ch.url = ch.url &&
  ch.url.all (fun c => c ≠ '\n')

/-- The channel the parser is expected to reproduce at position `i` from a
generated entry. -/
def expectedChannel (i : Nat) (ch : GenChannel) : M3UChannel :=
  { id := str "channel-" ++ natToStr i
    tvgName := ch.tvgName
    tvgLogo := if ch.tvgLogo = [] then none else some ch.tvgLogo
    tvgId := if ch.tvgId = [] then none else some ch.tvgId
    tvgCountry := if ch.tvgCountry = [] then none else some ch.tvgCountry
    tvgLanguage := if ch.tvgLanguage = [] then none else some ch.tvgLanguage
    groupTitle := ch.groupTitle
    url := ch.url }

/-- Expected round-trip output for a channel list, ids starting at `n`. -/
def expectedFrom (n : Nat) (chs : List GenChannel) : List M3UChannel :=
  List.zipWith expectedChannel (List.range' n chs.length) chs

/-- The attribute pairs `genInfoList` emits for a channel, as key/value pairs
(before escaping, which is the identity on clean values). -/
def pairsOf (ch : GenChannel) : List (List Char × List Char) :=
  (if ch.tvgName ≠ [] then [(str "tvg-name", ch.tvgName)] else []) ++
  (if ch.tvgLogo ≠ [] then [(str "tvg-logo", ch.tvgLogo)] else []) ++
  (if ch.tvgId ≠ [] then [(str "tvg-id", ch.tvgId)] else []) ++
  (if ch.tvgCountry ≠ [] then [(str "tvg-country", ch.tvgCountry)] else []) ++
  (if ch.tvgLanguage ≠ [] then [(str "tvg-language", ch.tvgLanguage)] else []) ++
  (if ch.groupTitle ≠ [] then [(str "group-title", ch.groupTitle)] else [])

/-- Bytes of the playlist `#EXTM3U\n#EXTINF:-1,A\nhttp://xÇ\n`; the final URL
ends with the two-byte UTF-8 character `Ç` (0xC3 0x87). -/
def bugBytes : List Nat :=
  (str "#EXTM3U\n#EXTINF:-1,A\nhttp://x").map Char.toNat ++ [0xC3, 0x87, 10]

/-- Group summary expected from a list of effective group names: one pair per
distinct name in first-encounter order, carrying its number of occurrences. -/
def summOf (l : List (List Char)) : List (List Char × Nat) :=
  (firstDedup l).map (fun g => (g, l.count g))

/-- Invariant tying the id counter to the emitted channels: ids are dense,
zero-based and in encounter order. -/
def idsOk (st : ParserState) : Prop :=
  st.channelId = st.channels.length ∧
  st.channels.map (fun c => c.id) =
    (List.range st.channels.length).map (fun i => str "channel-" ++ natToStr i)

/-- A channel whose display name contains a comma (legal per the claim's
hypotheses, but fatal to the round trip). -/
def commaChannel : GenChannel :=
  { tvgName := str "A,B", tvgLogo := [], tvgId := [], tvgCountry := []
    tvgLanguage := [], groupTitle := str "G", url := str "http://x" }

/-- A well-behaved channel used as a round-trip witness. -/
def sampleChannel : GenChannel :=
  { tvgName := str "Chan A", tvgLogo := str "http://logo/a.png", tvgId := []
    tvgCountry := [], tvgLanguage := str "tr", groupTitle := str "News"
    url := str "http://x/a" }

/-- A present, non-empty upload whose extension is not an M3U one. -/
def txtFile : UploadFile :=
  { name := str "a.txt", content := (str "hello").map Char.toNat }

/-- A small valid M3U upload. -/
def m3uFile : UploadFile :=
  { name := str "list.M3U"
    content := (str "#EXTM3U\n#EXTINF:-1 tvg-name=\"A\",A\nhttp://x/a\n").map Char.toNat }

/-- A parser state whose buffer holds an unterminated trailing info line. -/
def trailingInfoState : ParserState :=
  { channels := [], buffer := str "#EXTINF:-1 tvg-name=\"A\",A"
    currentInfo := none, channelId := 0 }

end SpecSide

section BasicLemmas

theorem lstartsWith_iff (p l : List Char) :
    lstartsWith p l = true ↔ ∃ t, l = p ++ t := by
  induction p generalizing l with
  | nil => simp [lstartsWith]
  | cons a ps ih =>
    cases l with
    | nil => simp [lstartsWith]
    | cons c cs =>
      simp only [lstartsWith, Bool.and_eq_true, decide_eq_true_eq, ih,
        List.cons_append, List.cons_eq_cons]
      constructor
      · rintro ⟨rfl, t, rfl⟩
        exact ⟨t, rfl, rfl⟩
      · rintro ⟨t, rfl, rfl⟩
        exact ⟨rfl, t, rfl⟩

theorem lstartsWith_append_self (p t : List Char) :
    lstartsWith p (p ++ t) = true :=
  (lstartsWith_iff p (p ++ t)).mpr ⟨t, rfl⟩

theorem mem_of_lstartsWith {p l : List Char} {a : Char}
    (h : lstartsWith p l = true) (ha : a ∈ p) : a ∈ l := by
  obtain ⟨t, rfl⟩ := (lstartsWith_iff p l).mp h
  exact List.mem_append_left t ha

theorem lstartsWith_cons_false {a c : Char} {ps l : List Char} (h : a ≠ c) :
    lstartsWith (a :: ps) (c :: l) = false := by
  simp [lstartsWith, h]

/-- A list whose first and last characters are not whitespace is already
trimmed. -/
theorem jsTrim_eq_self {l : List Char}
    (h1 : ∀ c, l.head? = some c → jsIsWs c = false)
    (h2 : ∀ c, l.getLast? = some c → jsIsWs c = false) :
    jsTrim l = l := by
  cases l with
  | nil => rfl
  | cons a t =>
    have ha : jsIsWs a = false := h1 a rfl
    have hdrop : (a :: t).dropWhile jsIsWs = a :: t := by
      simp [List.dropWhile_cons, ha]
    unfold jsTrim
    rw [hdrop]
    rcases hrev : (a :: t).reverse with _ | ⟨b, s⟩
    · simp at hrev
    · have hb : (a :: t).getLast? = some b := by
        rw [← List.head?_reverse, hrev]
        rfl
      have hbws : jsIsWs b = false := h2 b hb
      rw [List.dropWhile_cons, hbws]
      simp only [Bool.false_eq_true, if_false]
      rw [← hrev, List.reverse_reverse]

/-- Conversely, a fixed point of `jsTrim` has a non-whitespace head … -/
theorem head_of_trimmed {l : List Char} (h : jsTrim l = l) :
    ∀ c, l.head? = some c → jsIsWs c = false := by
  intro c hc
  have hsuf : l.dropWhile jsIsWs <:+ l := List.dropWhile_suffix jsIsWs
  have hlen1 : (l.dropWhile jsIsWs).length ≤ l.length := hsuf.length_le
  have hsuf2 : (l.dropWhile jsIsWs).reverse.dropWhile jsIsWs <:+
      (l.dropWhile jsIsWs).reverse := List.dropWhile_suffix jsIsWs
  have hlen2 := hsuf2.length_le
  have hlen3 : (jsTrim l).length =
      ((l.dropWhile jsIsWs).reverse.dropWhile jsIsWs).length := by
    unfold jsTrim; simp
  have hleq : l.length ≤ (l.dropWhile jsIsWs).length := by
    rw [h] at hlen3
    simpa using le_trans (le_of_eq hlen3) hlen2
  have heq : l.dropWhile jsIsWs = l :=
    hsuf.eq_of_length (le_antisymm hlen1 hleq)
  have := List.dropWhile_eq_self_iff.mp heq
  cases l with
  | nil => simp at hc
  | cons a t =>
    obtain rfl : a = c := by simpa using hc
    simpa using this (by simp)

/-- … and a non-whitespace last character. -/
theorem last_of_trimmed {l : List Char} (h : jsTrim l = l) :
    ∀ c, l.getLast? = some c → jsIsWs c = false := by
  intro c hc
  have hsuf : l.dropWhile jsIsWs <:+ l := List.dropWhile_suffix jsIsWs
  have hlen1 : (l.dropWhile jsIsWs).length ≤ l.length := hsuf.length_le
  have hsuf2 : (l.dropWhile jsIsWs).reverse.dropWhile jsIsWs <:+
      (l.dropWhile jsIsWs).reverse := List.dropWhile_suffix jsIsWs
  have hlen2 := hsuf2.length_le
  have hlen3 : (jsTrim l).length =
      ((l.dropWhile jsIsWs).reverse.dropWhile jsIsWs).length := by
    unfold jsTrim; simp
  have hleq : l.length ≤ (l.dropWhile jsIsWs).length := by
    rw [h] at hlen3
    simpa using le_trans (le_of_eq hlen3) hlen2
  have heq : l.dropWhile jsIsWs = l :=
    hsuf.eq_of_length (le_antisymm hlen1 hleq)
  have heq2 : (l.reverse).dropWhile jsIsWs = l.reverse := by
    have : jsTrim l = (l.reverse.dropWhile jsIsWs).reverse := by
      unfold jsTrim; rw [heq]
    have hlen4 : (l.reverse.dropWhile jsIsWs).length = l.length := by
      rw [h] at this
      have := congrArg List.length this
      simpa using this.symm
    exact (List.dropWhile_suffix jsIsWs).eq_of_length (by simpa using hlen4)
  cases hr : l.reverse with
  | nil =>
    have : l = [] := by simpa using congrArg List.reverse hr
    simp [this] at hc
  | cons b s =>
    have hb : l.getLast? = some b := by rw [← List.head?_reverse, hr]; rfl
    obtain rfl : b = c := by rw [hb] at hc; exact Option.some_injective _ hc
    rw [hr] at heq2
    by_cases hbw : jsIsWs b = true
    · exfalso
      have hdw : List.dropWhile jsIsWs s = b :: s := by
        simpa [List.dropWhile_cons, hbw] using heq2
      have hlen := congrArg List.length hdw
      have hsufs : s.dropWhile jsIsWs <:+ s := List.dropWhile_suffix jsIsWs
      have hle := hsufs.length_le
      simp at hlen
      omega
    · simpa using hbw

theorem splitNl_ne_nil (l : List Char) : splitNl l ≠ [] := by
  cases l with
  | nil => simp [splitNl]
  | cons c rest =>
    simp only [splitNl]
    split
    · simp
    · rcases splitNl rest with _ | ⟨x, xs⟩ <;> simp

theorem splitNl_append_newline {l : List Char} (r : List Char)
    (h : '\n' ∉ l) : splitNl (l ++ '\n' :: r) = l :: splitNl r := by
  induction l with
  | nil => simp [splitNl]
  | cons c t ih =>
    have hc : c ≠ '\n' := fun hc => h (by simp [hc])
    have ht : '\n' ∉ t := fun hm => h (List.mem_cons_of_mem _ hm)
    rw [List.cons_append, splitNl, if_neg hc, ih ht]

theorem stripCR_eq_self {l : List Char} (h : l.getLast? ≠ some '\r') :
    stripCR l = l := by
  unfold stripCR
  rcases hl : l.getLast? with _ | c
  · rfl
  · have : c ≠ '\r' := fun hc => h (by rw [hl, hc])
    simp [this]

theorem processLine_buffer (st : ParserState) (l : List Char) :
    (processLine st l).buffer = st.buffer := by
  unfold processLine
  dsimp only
  repeat' split
  all_goals rfl

/-- Feeding a chunk consisting of one newline-terminated line followed by more
text processes that line and continues with the rest. -/
theorem parseChunk_line {st : ParserState} {l : List Char} (rest : List Char)
    (hbuf : st.buffer = []) (hnl : '\n' ∉ l) (hcr : l.getLast? ≠ some '\r') :
    parseChunk st (l ++ '\n' :: rest) = parseChunk (processLine st l) rest := by
  unfold parseChunk
  rw [hbuf, List.nil_append, splitNl_append_newline rest hnl,
    processLine_buffer, hbuf, List.nil_append]
  rcases hs : splitNl rest with _ | ⟨x, xs⟩
  · exact absurd hs (splitNl_ne_nil rest)
  · simp only [List.dropLast_cons_of_ne_nil (by simp : (x :: xs) ≠ []),
      List.map_cons, List.foldl_cons, List.getLastD_cons,
      stripCR_eq_self hcr]

theorem parseChunk_nil {st : ParserState} (hbuf : st.buffer = []) :
    parseChunk st [] = st := by
  cases st with
  | mk chs ci bu cid =>
    simp only at hbuf
    subst hbuf
    unfold parseChunk
    simp [splitNl]

end BasicLemmas

section AttrLemmas

theorem dropWhile_idem (p : Char → Bool) (l : List Char) :
    List.dropWhile p (List.dropWhile p l) = List.dropWhile p l := by
  induction l with
  | nil => rfl
  | cons a t ih => by_cases h : p a <;> simp [List.dropWhile_cons, h, ih]

theorem jsTrim_dropWhile (t : List Char) :
    jsTrim (t.dropWhile jsIsWs) = jsTrim t := by
  unfold jsTrim
  rw [dropWhile_idem]

theorem jsTrim_ne_nil {t : List Char} (h : t.dropWhile jsIsWs ≠ []) :
    jsTrim t ≠ [] := by
  intro hnil
  unfold jsTrim at hnil
  have h2 : ((t.dropWhile jsIsWs).reverse.dropWhile jsIsWs) = [] := by
    simpa using congrArg List.reverse hnil
  have h3 := List.dropWhile_eq_nil_iff.mp h2
  obtain ⟨b, s, hbs⟩ := List.exists_cons_of_ne_nil h
  have hhead : jsIsWs b = false := by
    have hidem := dropWhile_idem jsIsWs t
    rw [hbs] at hidem
    have := List.dropWhile_eq_self_iff.mp hidem
    simpa using this (by simp)
  have : jsIsWs b = true := h3 b (by simp [hbs])
  rw [hhead] at this
  exact Bool.false_ne_true this

theorem jsTrim_eq_nil {t : List Char} (h : t.dropWhile jsIsWs = []) :
    jsTrim t = [] := by
  unfold jsTrim
  rw [h]
  rfl

/-- Splitting a list at a unique marker element is unambiguous. -/
theorem eq_split_unique {a b c d : List Char}
    (h : a ++ '=' :: b = c ++ '=' :: d) (ha : '=' ∉ a) (hc : '=' ∉ c) :
    a = c ∧ b = d := by
  induction a generalizing c with
  | nil =>
    cases c with
    | nil => simpa using h
    | cons e c' =>
      exfalso
      have : '=' = e := by simpa using congrArg List.head? h
      exact hc (by simp [← this])
  | cons e a' ih =>
    cases c with
    | nil =>
      exfalso
      have : e = '=' := by simpa using congrArg List.head? h
      exact ha (by simp [this])
    | cons f c' =>
      simp only [List.cons_append, List.cons_eq_cons] at h
      obtain ⟨rfl, h2⟩ := h
      have hr := ih h2 (fun hm => ha (List.mem_cons_of_mem _ hm))
        (fun hm => hc (List.mem_cons_of_mem _ hm))
      exact ⟨by rw [hr.1], hr.2⟩

/-- If the attribute pattern cannot start at any position inside `x`, the
scan passes over `x`. -/
theorem findAttr_skip_scan {k : List Char} (x z : List Char)
    (h : ∀ x1 x2, x = x1 ++ x2 → x2 ≠ [] →
      lstartsWith (k ++ ['=', '"']) (x2 ++ z) = false) :
    findAttr k (x ++ z) = findAttr k z := by
  induction x with
  | nil => rfl
  | cons c x' ih =>
    rw [List.cons_append, findAttr]
    have hc := h [] (c :: x') rfl (by simp)
    rw [List.cons_append] at hc
    rw [hc]
    simp only [Bool.false_eq_true, if_false]
    exact ih (fun x1 x2 hx hne => h (c :: x1) x2 (by rw [hx, List.cons_append]) hne)

/-- The pattern `k="` contains an equals sign, so it cannot match inside an
equals-free string. -/
theorem no_eq_no_findAttr {k : List Char} {s : List Char} (h : '=' ∉ s) :
    findAttr k s = none := by
  induction s with
  | nil => rfl
  | cons c rest ih =>
    rw [findAttr]
    have hf : lstartsWith (k ++ ['=', '"']) (c :: rest) = false := by
      cases hls : lstartsWith (k ++ ['=', '"']) (c :: rest)
      · rfl
      · exact absurd (mem_of_lstartsWith hls (by simp)) h
    rw [hf]
    simp only [Bool.false_eq_true, if_false]
    exact ih (fun hm => h (List.mem_cons_of_mem _ hm))

theorem takeWhile_until_quote {v : List Char} (z : List Char) (hv : '"' ∉ v) :
    (v ++ '"' :: z).takeWhile (fun d => d ≠ '"') = v := by
  induction v with
  | nil => simp [List.takeWhile_cons]
  | cons a t ih =>
    have ha : a ≠ '"' := fun hq => hv (by simp [hq])
    have ht : '"' ∉ t := fun hm => hv (List.mem_cons_of_mem _ hm)
    rw [List.cons_append, List.takeWhile_cons]
    simp only [ha, decide_eq_true_eq]
    rw [if_pos (by simpa using ha), ih ht]

/-- The attribute pattern matches at its own block and captures the value. -/
theorem findAttr_found {k v : List Char} (z : List Char) (hk : k ≠ [])
    (hv : '"' ∉ v) :
    findAttr k (k ++ '=' :: '"' :: (v ++ '"' :: z)) = some v := by
  obtain ⟨a, k', rfl⟩ := List.exists_cons_of_ne_nil hk
  rw [List.cons_append, findAttr]
  have hpre : lstartsWith ((a :: k') ++ ['=', '"'])
      (a :: (k' ++ '=' :: '"' :: (v ++ '"' :: z))) = true := by
    have := lstartsWith_append_self ((a :: k') ++ ['=', '"']) (v ++ '"' :: z)
    simpa using this
  rw [hpre]
  simp only [if_true]
  have hdrop : (a :: (k' ++ '=' :: '"' :: (v ++ '"' :: z))).drop
      ((a :: k').length + 2) = v ++ '"' :: z := by
    have : a :: (k' ++ '=' :: '"' :: (v ++ '"' :: z)) =
        ((a :: k') ++ ['=', '"']) ++ (v ++ '"' :: z) := by simp
    rw [this]
    have hlen : ((a :: k') ++ ['=', '"']).length = (a :: k').length + 2 := by simp
    rw [← hlen, List.drop_left]
  rw [hdrop]
  rw [if_pos (by simp : '"' ∈ v ++ '"' :: z)]
  rw [takeWhile_until_quote z hv]

/-- The attribute pattern for `k` cannot begin anywhere inside the block
`k1="v1"` when `k` is not a suffix of `k1` and the value is clean: a match
would either place the block's final quote inside the pattern's key, or align
the pattern's equals sign with the block's unique equals sign, forcing `k` to
be a suffix of `k1`. -/
theorem block_no_start {k k1 v1 z x1 x2 : List Char}
    (hx : k1 ++ '=' :: '"' :: (v1 ++ ['"']) = x1 ++ x2) (hne : x2 ≠ [])
    (hkq : '"' ∉ k) (hk1eq : '=' ∉ k1) (hkeq : '=' ∉ k)
    (hv1eq : '=' ∉ v1) (hsuf : ¬ k <:+ k1) :
    lstartsWith (k ++ ['=', '"']) (x2 ++ z) = false := by
  cases hb : lstartsWith (k ++ ['=', '"']) (x2 ++ z) with
  | false => rfl
  | true =>
    exfalso
    obtain ⟨t, ht⟩ := (lstartsWith_iff _ _).mp hb
    by_cases hlen : x2.length < k.length + 2
    · -- x2 ends with the block's closing quote, yet is a proper prefix of
      -- the pattern, whose only quote is its final character
      have hx2 : x2 = (k ++ ['=', '"']).take x2.length := by
        have h1 : (x2 ++ z).take x2.length = x2 := List.take_left x2 z
        have h2 : ((k ++ ['=', '"']) ++ t).take x2.length =
            (k ++ ['=', '"']).take x2.length :=
          List.take_append_of_le_length (by simp; omega)
        rw [ht] at h1
        exact h1.symm.trans h2
      have hlast : x2.getLast? = some '"' := by
        have hgl : (x1 ++ x2).getLast? = x2.getLast? :=
          List.getLast?_append_of_ne_nil _ hne
        rw [← hx] at hgl
        have : (k1 ++ '=' :: '"' :: (v1 ++ ['"'])).getLast? = some '"' := by
          have : k1 ++ '=' :: '"' :: (v1 ++ ['"']) =
              (k1 ++ '=' :: '"' :: v1) ++ ['"'] := by simp
          rw [this, List.getLast?_concat]
        rw [this] at hgl
        exact hgl.symm
      have hqin : '"' ∈ x2 := by
        rcases x2 with _ | ⟨e, x2'⟩
        · exact absurd rfl hne
        · have := List.getLast?_eq_getLast (e :: x2') (by simp)
          rw [this] at hlast
          have := List.getLast_mem (show e :: x2' ≠ [] by simp)
          rwa [Option.some_injective _ hlast] at this
      have hsub : '"' ∈ (k ++ ['=', '"']).take (k.length + 1) := by
        have h1 : (k ++ ['=', '"']).take x2.length =
            List.take x2.length ((k ++ ['=', '"']).take (k.length + 1)) := by
          rw [List.take_take]
          congr 1
          omega
        rw [hx2, h1] at hqin
        exact List.take_subset _ _ hqin
      have : (k ++ ['=', '"']).take (k.length + 1) = k ++ ['='] := by
        have : k ++ ['=', '"'] = k ++ (['=', '"'] : List Char) := rfl
        rw [show k.length + 1 = k.length + (1 : Nat) from rfl, List.take_append]
        rfl
      rw [this] at hsub
      rcases List.mem_append.mp hsub with h | h
      · exact hkq h
      · simp at h
    · -- the pattern sits entirely inside the block: its equals sign must be
      -- the block's unique one, making k a suffix of k1
      push_neg at hlen
      have hklen : (k ++ ['=', '"']).length ≤ x2.length := by simp; omega
      have hpat : (k ++ ['=', '"']) = x2.take (k ++ ['=', '"']).length := by
        have h1 : ((k ++ ['=', '"']) ++ t).take (k ++ ['=', '"']).length =
            k ++ ['=', '"'] := List.take_left _ _
        have h2 : (x2 ++ z).take (k ++ ['=', '"']).length =
            x2.take (k ++ ['=', '"']).length :=
          List.take_append_of_le_length hklen
        rw [ht] at h2
        exact (h2.symm.trans h1).symm
      have hx2' : x2 = (k ++ ['=', '"']) ++ x2.drop (k ++ ['=', '"']).length := by
        conv_lhs => rw [← List.take_append_drop (k ++ ['=', '"']).length x2]
        rw [← hpat]
      have hxfull : k1 ++ '=' :: ('"' :: (v1 ++ ['"'])) =
          (x1 ++ k) ++ '=' :: ('"' :: x2.drop (k ++ ['=', '"']).length) := by
        rw [hx, hx2']
        simp
      have hcx : List.count '=' (k1 ++ '=' :: ('"' :: (v1 ++ ['"']))) = 1 := by
        simp [List.count_append, List.count_cons,
          List.count_eq_zero.mpr hk1eq, List.count_eq_zero.mpr hv1eq]
      have hx1eq : '=' ∉ x1 := by
        intro hm
        have h2in : '=' ∈ x2 := by rw [hx2']; simp
        have hc1 : 0 < List.count '=' x1 := List.count_pos_iff.mpr hm
        have hc2 : 0 < List.count '=' x2 := List.count_pos_iff.mpr h2in
        have : List.count '=' (x1 ++ x2) = 1 := by rw [← hx]; exact hcx
        rw [List.count_append] at this
        omega
      have hx1k : '=' ∉ x1 ++ k := by
        intro hm
        rcases List.mem_append.mp hm with h | h
        · exact hx1eq h
        · exact hkeq h
      have := eq_split_unique hxfull hk1eq hx1k
      exact hsuf ⟨x1, this.1.symm⟩

/-- Scanning for a different key passes over a whole clean block. -/
theorem findAttr_block_skip {k k1 v1 : List Char} (z : List Char)
    (hkq : '"' ∉ k) (hkeq : '=' ∉ k) (hk1eq : '=' ∉ k1)
    (hv1eq : '=' ∉ v1) (hsuf : ¬ k <:+ k1) :
    findAttr k ((k1 ++ '=' :: '"' :: (v1 ++ ['"'])) ++ z) = findAttr k z :=
  findAttr_skip_scan _ z (fun x1 x2 hx hne =>
    @block_no_start k k1 v1 z x1 x2 hx hne hkq hk1eq hkeq hv1eq hsuf)

end AttrLemmas

section InfoLineLemmas

theorem keys_ne_nil : ∀ k ∈ KEYS, k ≠ [] := by decide

theorem keys_clean : ∀ k ∈ KEYS,
    '"' ∉ k ∧ '=' ∉ k ∧ ' ' ∉ k ∧ ',' ∉ k := by decide

theorem keys_no_suffix : ∀ k ∈ KEYS, ∀ k1 ∈ KEYS, k ≠ k1 → ¬ k <:+ k1 := by
  decide

theorem keys_head : ∀ k ∈ KEYS, ∀ c, k.head? = some c →
    (c.isDigit = false ∧ jsIsWs c = false ∧ c ≠ ',' ∧ c ≠ ' ') := by decide

/-- Looking up one key across the space-joined attribute blocks is exactly a
first-match lookup in the pair list, for any equals-free continuation. -/
theorem findAttr_blocksJoin {pairs : List (List Char × List Char)}
    {k : List Char} (u : List Char)
    (hps : ∀ p ∈ pairs, p.1 ∈ KEYS ∧ '"' ∉ p.2 ∧ '=' ∉ p.2)
    (hk : k ∈ KEYS) (hu : '=' ∉ u) :
    findAttr k (blocksJoin pairs ++ u) = lookupPairs pairs k := by
  induction pairs with
  | nil =>
    simp only [blocksJoin, List.map_nil, joinSpace, List.nil_append]
    rw [no_eq_no_findAttr hu]
    rfl
  | cons p rest ih =>
    obtain ⟨hpk, hpq, hpe⟩ := hps p (by simp)
    have hrest : ∀ q ∈ rest, q.1 ∈ KEYS ∧ '"' ∉ q.2 ∧ '=' ∉ q.2 :=
      fun q hq => hps q (List.mem_cons_of_mem _ hq)
    by_cases hkp : k = p.1
    · -- the first block is the match
      subst hkp
      have hknil := keys_ne_nil p.1 hk
      have hlk : lookupPairs (p :: rest) p.1 = some p.2 := by
        unfold lookupPairs
        rw [List.find?_cons_of_pos _ (by simp)]
        rfl
      rw [hlk]
      cases rest with
      | nil =>
        have hshape : blocksJoin [p] ++ u = p.1 ++ '=' :: '"' :: (p.2 ++ '"' :: u) := by
          simp [blocksJoin, joinSpace]
        rw [hshape, findAttr_found u hknil hpq]
      | cons q rest' =>
        have hshape : blocksJoin (p :: q :: rest') ++ u =
            p.1 ++ '=' :: '"' :: (p.2 ++ '"' :: (' ' :: (blocksJoin (q :: rest') ++ u))) := by
          simp [blocksJoin, joinSpace, List.map_cons]
        rw [hshape, findAttr_found _ hknil hpq]
    · -- skip the first block
      have hsuf : ¬ k <:+ p.1 := keys_no_suffix k hk p.1 hpk hkp
      have hkq := (keys_clean k hk).1
      have hke := (keys_clean k hk).2.1
      have hp1e := (keys_clean p.1 hpk).2.1
      have hlk : lookupPairs (p :: rest) k = lookupPairs rest k := by
        simp only [lookupPairs, List.find?_cons]
        have : (decide (p.1 = k)) = false := by
          simp [Ne.symm hkp]
        rw [this]
      rw [hlk]
      cases rest with
      | nil =>
        have hshape : blocksJoin [p] ++ u =
            (p.1 ++ '=' :: '"' :: (p.2 ++ ['"'])) ++ u := by
          simp [blocksJoin, joinSpace]
        rw [hshape, findAttr_block_skip u hkq hke hp1e hpe hsuf]
        rw [no_eq_no_findAttr hu]
        rfl
      | cons q rest' =>
        have hshape : blocksJoin (p :: q :: rest') ++ u =
            (p.1 ++ '=' :: '"' :: (p.2 ++ ['"'])) ++
              (' ' :: (blocksJoin (q :: rest') ++ u)) := by
          simp [blocksJoin, joinSpace, List.map_cons]
        rw [hshape, findAttr_block_skip _ hkq hke hp1e hpe hsuf]
        -- skip the separating space
        obtain ⟨a, k', rfl⟩ := List.exists_cons_of_ne_nil (keys_ne_nil _ hk)
        have ha : a ≠ ' ' := by
          intro h
          subst h
          exact (keys_clean _ hk).2.2.1 (List.mem_cons_self _ _)
        rw [findAttr]
        rw [show (a :: k') ++ ['=', '"'] = a :: (k' ++ ['=', '"']) by simp,
          lstartsWith_cons_false ha]
        simp only [Bool.false_eq_true, if_false]
        exact ih hrest

theorem findDisplayName_append {B : List Char} (u : List Char)
    (h : ',' ∉ B) : findDisplayName (B ++ u) = findDisplayName u := by
  induction B with
  | nil => rfl
  | cons c t ih =>
    have hc : c ≠ ',' := fun hq => h (by simp [hq])
    rw [List.cons_append, findDisplayName, if_neg hc]
    exact ih (fun hm => h (List.mem_cons_of_mem _ hm))

theorem findDisplayName_none {s : List Char} (h : ',' ∉ s) :
    findDisplayName s = none := by
  have := @findDisplayName_append s [] h
  simpa using this

theorem comma_notin_blocksJoin {pairs : List (List Char × List Char)}
    (hps : ∀ p ∈ pairs, ',' ∉ p.1 ∧ ',' ∉ p.2) :
    ',' ∉ blocksJoin pairs := by
  induction pairs with
  | nil => simp [blocksJoin, joinSpace]
  | cons p rest ih =>
    obtain ⟨h1, h2⟩ := hps p (by simp)
    have hrest := fun q hq => hps q (List.mem_cons_of_mem _ hq)
    cases rest with
    | nil =>
      simp only [blocksJoin, List.map_cons, List.map_nil, joinSpace]
      intro hm
      rcases List.mem_append.mp hm with h | h
      · rcases List.mem_append.mp h with h | h
        · rcases List.mem_append.mp h with h | h
          · exact h1 h
          · simp at h
        · exact h2 h
      · simp at h
    | cons q rest' =>
      have hshape : blocksJoin (p :: q :: rest') =
          (p.1 ++ '=' :: '"' :: (p.2 ++ ['"'])) ++ ' ' :: blocksJoin (q :: rest') := by
        simp [blocksJoin, joinSpace, List.map_cons]
      rw [hshape]
      intro hm
      rcases List.mem_append.mp hm with h | h
      · rcases List.mem_append.mp h with h | h
        · exact h1 h
        · simp only [List.mem_cons] at h
          rcases h with h | h | h
          · exact absurd h (by decide)
          · exact absurd h (by decide)
          · rcases List.mem_append.mp h with h | h
            · exact h2 h
            · simp at h
      · simp only [List.mem_cons] at h
        rcases h with h | h
        · exact absurd h (by decide)
        · exact ih hrest h

theorem greedyRest_drop {t : List Char} (hterm : ∀ c ∈ t, jsIsTerm c = false)
    (hne : t.dropWhile jsIsWs ≠ []) :
    greedyRest t = some (t.dropWhile jsIsWs) := by
  induction t with
  | nil => simp at hne
  | cons c rest ih =>
    by_cases hw : jsIsWs c = true
    · have hdrop : (c :: rest).dropWhile jsIsWs = rest.dropWhile jsIsWs := by
        simp [List.dropWhile_cons, hw]
      rw [hdrop] at hne ⊢
      rw [greedyRest, if_pos hw]
      rw [ih (fun d hd => hterm d (List.mem_cons_of_mem _ hd)) hne]
    · have hdrop : (c :: rest).dropWhile jsIsWs = c :: rest := by
        simp [List.dropWhile_cons, hw]
      rw [hdrop]
      rw [greedyRest, if_neg (by simpa using hw)]
      rw [if_pos]
      rw [List.all_eq_true]
      intro d hd
      simp [hterm d hd]

theorem greedyRest_allws {t : List Char} (hne : t ≠ [])
    (hws : ∀ c ∈ t, jsIsWs c = true) (hterm : ∀ c ∈ t, jsIsTerm c = false) :
    ∃ r, greedyRest t = some r ∧ jsTrim r = [] := by
  induction t with
  | nil => exact absurd rfl hne
  | cons c rest ih =>
    have hc := hws c (by simp)
    cases rest with
    | nil =>
      refine ⟨[c], ?_, ?_⟩
      · rw [greedyRest, if_pos hc]
        have : greedyRest [] = none := rfl
        rw [this]
        rw [if_pos]
        rw [List.all_eq_true]
        intro d hd
        simp only [List.mem_singleton] at hd
        simp [hd, hterm c (by simp)]
      · simp [jsTrim, List.dropWhile_cons, hc]
    | cons b rest' =>
      obtain ⟨r, hr, htr⟩ := ih (by simp)
        (fun d hd => hws d (List.mem_cons_of_mem _ hd))
        (fun d hd => hterm d (List.mem_cons_of_mem _ hd))
      refine ⟨r, ?_, htr⟩
      rw [greedyRest, if_pos hc, hr]

theorem cleanVal_spec {v : List Char} (h : cleanVal v = true) :
    '"' ∉ v ∧ '=' ∉ v ∧ ',' ∉ v ∧ ∀ c ∈ v, jsIsTerm c = false := by
  unfold cleanVal at h
  rw [List.all_eq_true] at h
  have h' : ∀ c ∈ v, c ≠ '"' ∧ c ≠ ',' ∧ c ≠ '=' ∧ jsIsTerm c = false := by
    intro c hc
    have := h c hc
    simp only [decide_eq_true_eq, not_or] at this
    exact ⟨this.1, this.2.1, this.2.2.1, by simpa using this.2.2.2⟩
  exact ⟨fun hm => (h' _ hm).1 rfl, fun hm => (h' _ hm).2.2.1 rfl,
    fun hm => (h' _ hm).2.1 rfl, fun c hm => (h' _ hm).2.2.2⟩

/-- Strip the duration prefix `-1 ` from an emitted info line, where the
remainder starts with a non-digit, non-whitespace, non-comma character. -/
theorem stripDuration_dash1 {X : List Char} {a : Char} (hX : X.head? = some a)
    (ha : a.isDigit = false) (haws : jsIsWs a = false) (hac : a ≠ ',') :
    stripDuration (str "-1 " ++ X) = X := by
  cases X with
  | nil => simp at hX
  | cons b X' =>
    have hb : b = a := by simpa using hX
    rw [← hb] at ha haws hac
    have hdrop2 : ((('1' :: ' ' :: b :: X').dropWhile
        Char.isDigit).dropWhile jsIsWs) = b :: X' := by
      rw [List.dropWhile_cons, if_pos (by decide : Char.isDigit '1' = true),
        List.dropWhile_cons, if_neg (by simp : ¬ Char.isDigit ' ' = true),
        List.dropWhile_cons, if_pos (by decide : jsIsWs ' ' = true),
        List.dropWhile_cons, if_neg (by simp [haws])]
    have hcore : stripDurationCore ('1' :: ' ' :: b :: X') = some (b :: X') := by
      unfold stripDurationCore
      rw [if_neg (by
        rw [List.takeWhile_cons, if_pos (by decide : Char.isDigit '1' = true)]
        simp)]
      dsimp only
      rw [hdrop2]
      split
      · next u heq =>
        exfalso
        have := congrArg List.head? heq
        simp only [List.head?_cons, Option.some_inj] at this
        exact hac this
      · rw [List.dropWhile_cons, if_neg (by simp [haws])]
    show stripDuration ('-' :: '1' :: ' ' :: b :: X') = b :: X'
    show (match stripDurationCore ('1' :: ' ' :: b :: X') with
      | some r => r
      | none => '-' :: '1' :: ' ' :: b :: X') = b :: X'
    rw [hcore]

/-- Full characterisation of `parseExtInfo` on an emitted info line:
attributes resolve by first-match lookup, the group falls back to the
sentinel, and the display name follows the trailing-text precedence. -/
theorem parseExtInfo_mkInfo {pairs : List (List Char × List Char)}
    {topt : Option (List Char)} (hpairs : pairs ≠ [])
    (hps : ∀ p ∈ pairs, p.1 ∈ KEYS ∧ cleanVal p.2 = true)
    (ht : ∀ t, topt = some t → ('=' ∉ t ∧ ∀ c ∈ t, jsIsTerm c = false)) :
    parseExtInfo (mkInfo pairs topt) =
      { tvgName := specDisplayName pairs topt
        tvgLogo := lookupPairs pairs (str "tvg-logo")
        tvgId := lookupPairs pairs (str "tvg-id")
        tvgCountry := lookupPairs pairs (str "tvg-country")
        tvgLanguage := lookupPairs pairs (str "tvg-language")
        groupTitle := jsOrOpt (lookupPairs pairs (str "group-title")) (str "Other") } := by
  have hps' : ∀ p ∈ pairs, p.1 ∈ KEYS ∧ '"' ∉ p.2 ∧ '=' ∉ p.2 := by
    intro p hp
    obtain ⟨h1, h2⟩ := hps p hp
    obtain ⟨hq, he, _, _⟩ := cleanVal_spec h2
    exact ⟨h1, hq, he⟩
  have hcomma : ',' ∉ blocksJoin pairs := by
    apply comma_notin_blocksJoin
    intro p hp
    obtain ⟨h1, h2⟩ := hps p hp
    exact ⟨(keys_clean _ h1).2.2.2, (cleanVal_spec h2).2.2.1⟩
  -- the remainder after stripping the duration
  obtain ⟨p0, rest0, rfl⟩ := List.exists_cons_of_ne_nil hpairs
  have hp0k := (hps' p0 (by simp)).1
  obtain ⟨a, k0, hk0⟩ := List.exists_cons_of_ne_nil (keys_ne_nil _ hp0k)
  have hahead := keys_head p0.1 hp0k a (by rw [hk0]; rfl)
  have hhead : (blocksJoin (p0 :: rest0) ++ optComma topt).head? = some a := by
    cases rest0 <;> simp [blocksJoin, joinSpace, hk0]
  have hstrip : stripDuration (mkInfo (p0 :: rest0) topt) =
      blocksJoin (p0 :: rest0) ++ optComma topt := by
    unfold mkInfo
    exact stripDuration_dash1 hhead hahead.1 hahead.2.1 hahead.2.2.1
  have hueq : '=' ∉ optComma topt := by
    cases htopt : topt with
    | none => simp [optComma]
    | some t =>
      simp only [optComma]
      intro hm
      rcases List.mem_cons.mp hm with h | h
      · exact absurd h (by decide)
      · exact (ht t htopt).1 h
  unfold parseExtInfo
  rw [hstrip]
  dsimp only
  rw [findAttr_blocksJoin (optComma topt) hps' (by decide) hueq,
    findAttr_blocksJoin (optComma topt) hps' (by decide) hueq,
    findAttr_blocksJoin (optComma topt) hps' (by decide) hueq,
    findAttr_blocksJoin (optComma topt) hps' (by decide) hueq,
    findAttr_blocksJoin (optComma topt) hps' (by decide) hueq,
    findAttr_blocksJoin (optComma topt) hps' (by decide) hueq]
  -- all that remains is the display name
  have hskip : findDisplayName (blocksJoin (p0 :: rest0) ++ optComma topt) =
      findDisplayName (optComma topt) := findDisplayName_append _ hcomma
  cases topt with
  | none =>
    have hdn : findDisplayName (blocksJoin (p0 :: rest0) ++ optComma none) = none := by
      rw [hskip]
      rfl
    have hdisp : (match findDisplayName (blocksJoin (p0 :: rest0) ++ optComma none) with
        | some r => jsTrim r
        | none => str "Unknown") = str "Unknown" := by rw [hdn]
    rw [hdisp]
    have hname : jsOr (str "Unknown")
        (jsOrOpt (lookupPairs (p0 :: rest0) (str "tvg-name")) (str "Unknown")) =
        str "Unknown" := by
      unfold jsOr
      rw [if_neg (by decide)]
    rw [hname]
    rfl
  | some t =>
    have hterm := (ht t rfl).2
    have hcm : findDisplayName (blocksJoin (p0 :: rest0) ++ optComma (some t)) =
        (match greedyRest t with
         | some r => some r
         | none => findDisplayName t) := by
      rw [hskip]
      show findDisplayName (',' :: t) = _
      rw [findDisplayName, if_pos rfl]
    by_cases htnil : t = []
    · subst htnil
      have hdisp : (match findDisplayName (blocksJoin (p0 :: rest0) ++
            optComma (some [])) with
          | some r => jsTrim r
          | none => str "Unknown") = str "Unknown" := by
        rw [hcm]
        rfl
      rw [hdisp]
      have hname : jsOr (str "Unknown")
          (jsOrOpt (lookupPairs (p0 :: rest0) (str "tvg-name")) (str "Unknown")) =
          str "Unknown" := by
        unfold jsOr
        rw [if_neg (by decide)]
      rw [hname]
      rfl
    · by_cases hdw : t.dropWhile jsIsWs = []
      · -- blank (all-whitespace) trailing text: fall back to the attribute
        have hallws : ∀ c ∈ t, jsIsWs c = true := List.dropWhile_eq_nil_iff.mp hdw
        obtain ⟨r, hr, htr⟩ := greedyRest_allws htnil hallws hterm
        have hdisp : (match findDisplayName (blocksJoin (p0 :: rest0) ++
              optComma (some t)) with
            | some r => jsTrim r
            | none => str "Unknown") = jsTrim r := by rw [hcm, hr]
        rw [hdisp, htr]
        have hname : jsOr []
            (jsOrOpt (lookupPairs (p0 :: rest0) (str "tvg-name")) (str "Unknown")) =
            jsOrOpt (lookupPairs (p0 :: rest0) (str "tvg-name")) (str "Unknown") := rfl
        rw [hname]
        have hspec : specDisplayName (p0 :: rest0) (some t) =
            jsOrOpt (lookupPairs (p0 :: rest0) (str "tvg-name")) (str "Unknown") := by
          show (if jsTrim t ≠ [] then jsTrim t
            else if t = [] then str "Unknown"
            else jsOrOpt (lookupPairs (p0 :: rest0) (str "tvg-name"))
              (str "Unknown")) = _
          rw [if_neg (by simpa using jsTrim_eq_nil hdw), if_neg htnil]
        rw [hspec]
      · -- non-blank trailing text wins
        have hg := greedyRest_drop hterm hdw
        have hdisp : (match findDisplayName (blocksJoin (p0 :: rest0) ++
              optComma (some t)) with
            | some r => jsTrim r
            | none => str "Unknown") = jsTrim (t.dropWhile jsIsWs) := by
          rw [hcm, hg]
        rw [hdisp, jsTrim_dropWhile]
        have htne := jsTrim_ne_nil hdw
        have hname : jsOr (jsTrim t)
            (jsOrOpt (lookupPairs (p0 :: rest0) (str "tvg-name")) (str "Unknown")) =
            jsTrim t := by
          unfold jsOr
          rw [if_neg htne]
        rw [hname]
        have hspec : specDisplayName (p0 :: rest0) (some t) = jsTrim t := by
          show (if jsTrim t ≠ [] then jsTrim t
            else if t = [] then str "Unknown"
            else jsOrOpt (lookupPairs (p0 :: rest0) (str "tvg-name"))
              (str "Unknown")) = _
          rw [if_pos (by simpa using htne)]
        rw [hspec]

end InfoLineLemmas

section RoundTripLemmas

theorem cleanVal_no_crlf {v : List Char} (h : cleanVal v = true) :
    ∀ c ∈ v, c ≠ '\r' ∧ c ≠ '\n' := by
  intro c hc
  have h2 := (cleanVal_spec h).2.2.2 c hc
  constructor
  · intro hr
    rw [hr] at h2
    simp [jsIsTerm] at h2
  · intro hn
    rw [hn] at h2
    simp [jsIsTerm] at h2

theorem escapeAttribute_clean {v : List Char} (h : cleanVal v = true) :
    escapeAttribute v = v := by
  unfold escapeAttribute
  split
  · next hnil => rw [hnil]
  · have hmap : v.map (fun c => if c = '"' then Char.ofNat 39 else c) = v := by
      have : ∀ c ∈ v, (fun c => if c = '"' then Char.ofNat 39 else c) c = id c := by
        intro c hc
        have : c ≠ '"' := fun hq => (cleanVal_spec h).1 (hq ▸ hc)
        simp [this]
      rw [List.map_congr_left this, List.map_id]
    rw [hmap, List.filter_eq_self.mpr]
    intro c hc
    have := cleanVal_no_crlf h c hc
    simp [this.1, this.2]

theorem escapeValue_clean {v : List Char} (hcv : cleanVal v = true)
    (htrim : jsTrim v = v) (hne : v ≠ []) : escapeValue v = v := by
  unfold escapeValue
  rw [if_neg hne]
  rw [List.filter_eq_self.mpr, htrim]
  intro c hc
  have := cleanVal_no_crlf hcv c hc
  simp [this.1, this.2]

theorem cleanChannel_spec {ch : GenChannel} (h : cleanChannel ch = true) :
    cleanVal ch.tvgName = true ∧ ch.tvgName ≠ [] ∧ jsTrim ch.tvgName = ch.tvgName ∧
    cleanVal ch.tvgLogo = true ∧ cleanVal ch.tvgId = true ∧
    cleanVal ch.tvgCountry = true ∧ cleanVal ch.tvgLanguage = true ∧
    cleanVal ch.groupTitle = true ∧ ch.groupTitle ≠ [] ∧
    lstartsWith (str "http") ch.url = true ∧ jsTrim ch.url = ch.url ∧
    ∀ c ∈ ch.url, c ≠ '\n' := by
  unfold cleanChannel at h
  simp only [Bool.and_eq_true, decide_eq_true_eq, List.all_eq_true] at h
  obtain ⟨⟨⟨⟨⟨⟨⟨⟨⟨⟨⟨h1, h2⟩, h3⟩, h4⟩, h5⟩, h6⟩, h7⟩, h8⟩, h9⟩, h10⟩, h11⟩, h12⟩ := h
  exact ⟨h1, h2, h3, h4, h5, h6, h7, h8, h9, h10, h11,
    fun c hc => by simpa using h12 c hc⟩

theorem genInfoList_eq {ch : GenChannel} (h : cleanChannel ch = true) :
    genInfoList ch = (pairsOf ch).map (fun p => p.1 ++ ['=', '"'] ++ p.2 ++ ['"']) := by
  obtain ⟨c1, _, _, c4, c5, c6, c7, c8, _, _, _, _⟩ := cleanChannel_spec h
  unfold genInfoList pairsOf attrBlock
  rw [escapeAttribute_clean c1, escapeAttribute_clean c4, escapeAttribute_clean c5,
    escapeAttribute_clean c6, escapeAttribute_clean c7, escapeAttribute_clean c8]
  simp only [List.map_append, apply_ite (List.map
    (fun p : List Char × List Char => p.1 ++ ['=', '"'] ++ p.2 ++ ['"'])),
    List.map_cons, List.map_nil]

theorem mem_ite_singleton {c : Prop} [Decidable c] {x p : α}
    (h : p ∈ (if c then [x] else [])) : p = x := by
  split at h
  · simpa using h
  · simp at h

theorem mem_pairsOf {ch : GenChannel} {p : List Char × List Char}
    (hp : p ∈ pairsOf ch) :
    p = (str "tvg-name", ch.tvgName) ∨ p = (str "tvg-logo", ch.tvgLogo) ∨
    p = (str "tvg-id", ch.tvgId) ∨ p = (str "tvg-country", ch.tvgCountry) ∨
    p = (str "tvg-language", ch.tvgLanguage) ∨
    p = (str "group-title", ch.groupTitle) := by
  unfold pairsOf at hp
  rcases List.mem_append.mp hp with h | hx
  · rcases List.mem_append.mp h with h | hx
    · rcases List.mem_append.mp h with h | hx
      · rcases List.mem_append.mp h with h | hx
        · rcases List.mem_append.mp h with h | hx
          · exact Or.inl (mem_ite_singleton h)
          · exact Or.inr (Or.inl (mem_ite_singleton hx))
        · exact Or.inr (Or.inr (Or.inl (mem_ite_singleton hx)))
      · exact Or.inr (Or.inr (Or.inr (Or.inl (mem_ite_singleton hx))))
    · exact Or.inr (Or.inr (Or.inr (Or.inr (Or.inl (mem_ite_singleton hx)))))
  · exact Or.inr (Or.inr (Or.inr (Or.inr (Or.inr (mem_ite_singleton hx)))))

theorem pairsOf_clean {ch : GenChannel} (h : cleanChannel ch = true) :
    ∀ p ∈ pairsOf ch, p.1 ∈ KEYS ∧ cleanVal p.2 = true := by
  obtain ⟨c1, _, _, c4, c5, c6, c7, c8, _, _, _, _⟩ := cleanChannel_spec h
  intro p hp
  rcases mem_pairsOf hp with h | h | h | h | h | h <;> subst h
  · exact ⟨show str "tvg-name" ∈ KEYS by decide, c1⟩
  · exact ⟨show str "tvg-logo" ∈ KEYS by decide, c4⟩
  · exact ⟨show str "tvg-id" ∈ KEYS by decide, c5⟩
  · exact ⟨show str "tvg-country" ∈ KEYS by decide, c6⟩
  · exact ⟨show str "tvg-language" ∈ KEYS by decide, c7⟩
  · exact ⟨show str "group-title" ∈ KEYS by decide, c8⟩

theorem pairsOf_cons {ch : GenChannel} (h : ch.tvgName ≠ []) :
    ∃ R, pairsOf ch = (str "tvg-name", ch.tvgName) :: R := by
  unfold pairsOf
  rw [if_pos h]
  exact ⟨_, rfl⟩

theorem lookupPairs_append (A B : List (List Char × List Char)) (k : List Char) :
    lookupPairs (A ++ B) k = (lookupPairs A k).or (lookupPairs B k) := by
  unfold lookupPairs
  rw [List.find?_append]
  cases List.find? (fun p => p.1 = k) A <;> rfl

theorem lookupPairs_ite_ne {c : Prop} [Decidable c]
    {k' v k : List Char} (h : ¬ k' = k) :
    lookupPairs (if c then [(k', v)] else []) k = none := by
  split <;> simp [lookupPairs, List.find?, h]

theorem lookupPairs_ite_eq {c : Prop} [Decidable c] {k v : List Char} :
    lookupPairs (if c then [(k, v)] else []) k = if c then some v else none := by
  split <;> simp [lookupPairs, List.find?]

theorem lookupPairs_pairsOf_name (ch : GenChannel) :
    lookupPairs (pairsOf ch) (str "tvg-name") =
      if ch.tvgName = [] then none else some ch.tvgName := by
  unfold pairsOf
  rw [lookupPairs_append, lookupPairs_append, lookupPairs_append,
    lookupPairs_append, lookupPairs_append]
  rw [lookupPairs_ite_eq, lookupPairs_ite_ne (by decide),
    lookupPairs_ite_ne (by decide), lookupPairs_ite_ne (by decide),
    lookupPairs_ite_ne (by decide), lookupPairs_ite_ne (by decide)]
  split
  · next h => simp [if_neg h]
  · next h => simp [if_pos (by simpa using h)]

theorem lookupPairs_pairsOf_logo (ch : GenChannel) :
    lookupPairs (pairsOf ch) (str "tvg-logo") =
      if ch.tvgLogo = [] then none else some ch.tvgLogo := by
  unfold pairsOf
  rw [lookupPairs_append, lookupPairs_append, lookupPairs_append,
    lookupPairs_append, lookupPairs_append]
  rw [lookupPairs_ite_ne (by decide), lookupPairs_ite_eq,
    lookupPairs_ite_ne (by decide), lookupPairs_ite_ne (by decide),
    lookupPairs_ite_ne (by decide), lookupPairs_ite_ne (by decide)]
  split
  · next h => simp [if_neg h]
  · next h => simp [if_pos (by simpa using h)]

theorem lookupPairs_pairsOf_id (ch : GenChannel) :
    lookupPairs (pairsOf ch) (str "tvg-id") =
      if ch.tvgId = [] then none else some ch.tvgId := by
  unfold pairsOf
  rw [lookupPairs_append, lookupPairs_append, lookupPairs_append,
    lookupPairs_append, lookupPairs_append]
  rw [lookupPairs_ite_ne (by decide), lookupPairs_ite_ne (by decide),
    lookupPairs_ite_eq, lookupPairs_ite_ne (by decide),
    lookupPairs_ite_ne (by decide), lookupPairs_ite_ne (by decide)]
  split
  · next h => simp [if_neg h]
  · next h => simp [if_pos (by simpa using h)]

theorem lookupPairs_pairsOf_country (ch : GenChannel) :
    lookupPairs (pairsOf ch) (str "tvg-country") =
      if ch.tvgCountry = [] then none else some ch.tvgCountry := by
  unfold pairsOf
  rw [lookupPairs_append, lookupPairs_append, lookupPairs_append,
    lookupPairs_append, lookupPairs_append]
  rw [lookupPairs_ite_ne (by decide), lookupPairs_ite_ne (by decide),
    lookupPairs_ite_ne (by decide), lookupPairs_ite_eq,
    lookupPairs_ite_ne (by decide), lookupPairs_ite_ne (by decide)]
  split
  · next h => simp [if_neg h]
  · next h => simp [if_pos (by simpa using h)]

theorem lookupPairs_pairsOf_language (ch : GenChannel) :
    lookupPairs (pairsOf ch) (str "tvg-language") =
      if ch.tvgLanguage = [] then none else some ch.tvgLanguage := by
  unfold pairsOf
  rw [lookupPairs_append, lookupPairs_append, lookupPairs_append,
    lookupPairs_append, lookupPairs_append]
  rw [lookupPairs_ite_ne (by decide), lookupPairs_ite_ne (by decide),
    lookupPairs_ite_ne (by decide), lookupPairs_ite_ne (by decide),
    lookupPairs_ite_eq, lookupPairs_ite_ne (by decide)]
  split
  · next h => simp [if_neg h]
  · next h => simp [if_pos (by simpa using h)]

theorem lookupPairs_pairsOf_group (ch : GenChannel) :
    lookupPairs (pairsOf ch) (str "group-title") =
      if ch.groupTitle = [] then none else some ch.groupTitle := by
  unfold pairsOf
  rw [lookupPairs_append, lookupPairs_append, lookupPairs_append,
    lookupPairs_append, lookupPairs_append]
  rw [lookupPairs_ite_ne (by decide), lookupPairs_ite_ne (by decide),
    lookupPairs_ite_ne (by decide), lookupPairs_ite_ne (by decide),
    lookupPairs_ite_ne (by decide), lookupPairs_ite_eq]
  split
  · next h => simp [if_neg h]
  · next h => simp [if_pos (by simpa using h)]

theorem keys_no_nl : ∀ k ∈ KEYS, '\n' ∉ k := by decide

theorem char_notin_blocksJoin {c : Char} {pairs : List (List Char × List Char)}
    (hps : ∀ p ∈ pairs, c ∉ p.1 ∧ c ∉ p.2)
    (h1 : c ≠ '=') (h2 : c ≠ '"') (h3 : c ≠ ' ') :
    c ∉ blocksJoin pairs := by
  induction pairs with
  | nil => simp [blocksJoin, joinSpace]
  | cons p rest ih =>
    obtain ⟨hp1, hp2⟩ := hps p (by simp)
    have hrest := fun q hq => hps q (List.mem_cons_of_mem _ hq)
    cases rest with
    | nil =>
      simp only [blocksJoin, List.map_cons, List.map_nil, joinSpace]
      intro hm
      rcases List.mem_append.mp hm with h | h
      · rcases List.mem_append.mp h with h | h
        · rcases List.mem_append.mp h with h | h
          · exact hp1 h
          · simp only [List.mem_cons] at h
            rcases h with h | h | h
            · exact h1 h
            · exact h2 h
            · simp at h
        · exact hp2 h
      · simp only [List.mem_singleton] at h
        exact h2 h
    | cons q rest' =>
      have hshape : blocksJoin (p :: q :: rest') =
          (p.1 ++ '=' :: '"' :: (p.2 ++ ['"'])) ++ ' ' :: blocksJoin (q :: rest') := by
        simp [blocksJoin, joinSpace, List.map_cons]
      rw [hshape]
      intro hm
      rcases List.mem_append.mp hm with h | h
      · rcases List.mem_append.mp h with h | h
        · exact hp1 h
        · simp only [List.mem_cons] at h
          rcases h with h | h | h
          · exact h1 h
          · exact h2 h
          · rcases List.mem_append.mp h with h | h
            · exact hp2 h
            · simp only [List.mem_singleton] at h
              exact h2 h
      · simp only [List.mem_cons] at h
        rcases h with h | h
        · exact h3 h
        · exact ih hrest h

theorem expectedFrom_cons (n : Nat) (ch : GenChannel) (rest : List GenChannel) :
    expectedFrom n (ch :: rest) = expectedChannel n ch :: expectedFrom (n + 1) rest := by
  unfold expectedFrom
  rw [List.length_cons, List.range'_succ]
  rfl

theorem genEntry_decomp {ch : GenChannel} (h : cleanChannel ch = true)
    (Z : List Char) :
    genEntry ch ++ Z =
      (str "#EXTINF:" ++ mkInfo (pairsOf ch) (some ch.tvgName)) ++
        '\n' :: (ch.url ++ '\n' :: Z) := by
  obtain ⟨c1, c2, c3, _⟩ := cleanChannel_spec h
  unfold genEntry mkInfo blocksJoin
  rw [genInfoList_eq h, escapeValue_clean c1 c3 c2]
  have hsplit : str "#EXTINF:-1 " = str "#EXTINF:" ++ str "-1 " := by decide
  rw [hsplit]
  simp [optComma, List.append_assoc]

theorem not_extm3u_of_extinf (X : List Char) :
    lstartsWith (str "#EXTM3U") (str "#EXTINF:" ++ X) = false := by
  show lstartsWith ('#' :: 'E' :: 'X' :: 'T' :: 'M' :: '3' :: 'U' :: [])
    ('#' :: 'E' :: 'X' :: 'T' :: 'I' :: 'N' :: 'F' :: ':' :: X) = false
  simp [lstartsWith]

theorem not_extm3u_of_http (v : List Char) :
    lstartsWith (str "#EXTM3U") (str "http" ++ v) = false := by
  show lstartsWith ('#' :: 'E' :: 'X' :: 'T' :: 'M' :: '3' :: 'U' :: [])
    ('h' :: 't' :: 't' :: 'p' :: v) = false
  simp [lstartsWith]

theorem not_extinf_of_http (v : List Char) :
    lstartsWith (str "#EXTINF:") (str "http" ++ v) = false := by
  show lstartsWith ('#' :: 'E' :: 'X' :: 'T' :: 'I' :: 'N' :: 'F' :: ':' :: [])
    ('h' :: 't' :: 't' :: 'p' :: v) = false
  simp [lstartsWith]

theorem drop8_extinf (X : List Char) : (str "#EXTINF:" ++ X).drop 8 = X := by
  show ('#' :: 'E' :: 'X' :: 'T' :: 'I' :: 'N' :: 'F' :: ':' :: X).drop 8 = X
  rfl

/-- The info line of a clean generated entry sets the pending accumulator. -/
theorem processLine_infoLine (st : ParserState) {ch : GenChannel}
    (h : cleanChannel ch = true) :
    processLine st (str "#EXTINF:" ++ mkInfo (pairsOf ch) (some ch.tvgName)) =
      { st with
        currentInfo := some (parseExtInfo (mkInfo (pairsOf ch) (some ch.tvgName))) } := by
  obtain ⟨c1, c2, c3, _⟩ := cleanChannel_spec h
  have hlast : (str "#EXTINF:" ++ mkInfo (pairsOf ch) (some ch.tvgName)).getLast? =
      ch.tvgName.getLast? := by
    unfold mkInfo
    rw [List.getLast?_append_of_ne_nil _ (by simp [optComma])]
    rw [List.getLast?_append_of_ne_nil _ (by simp [optComma])]
    show ([','] ++ ch.tvgName).getLast? = _
    rw [List.getLast?_append_of_ne_nil _ c2]
  have htrim : jsTrim (str "#EXTINF:" ++ mkInfo (pairsOf ch) (some ch.tvgName)) =
      str "#EXTINF:" ++ mkInfo (pairsOf ch) (some ch.tvgName) := by
    apply jsTrim_eq_self
    · intro c hc
      have : (str "#EXTINF:" ++ mkInfo (pairsOf ch) (some ch.tvgName)).head? =
          some '#' := rfl
      rw [this] at hc
      obtain rfl : '#' = c := Option.some_injective _ hc
      decide
    · intro c hc
      rw [hlast] at hc
      exact last_of_trimmed c3 c hc
  unfold processLine
  rw [htrim]
  rw [if_neg (by
    intro hnil
    have : ('#' : Char) ∈ (str "#EXTINF:" ++ mkInfo (pairsOf ch) (some ch.tvgName)) := by
      apply List.mem_append_left
      decide
    rw [hnil] at this
    simp at this)]
  rw [if_neg (by simp [not_extm3u_of_extinf]),
    if_pos (lstartsWith_append_self (str "#EXTINF:") _)]
  rw [drop8_extinf]

/-- A clean URL line completes the pending entry. -/
theorem processLine_urlLine {st : ParserState} {info : ChannelInfo}
    {url : List Char} (hst : st.currentInfo = some info)
    (hname : info.tvgName ≠ []) (hhttp : lstartsWith (str "http") url = true)
    (htrim : jsTrim url = url) :
    processLine st url =
      { st with channels := st.channels ++ [mkChannel info url st.channelId]
                currentInfo := none
                channelId := st.channelId + 1 } := by
  obtain ⟨v, rfl⟩ := (lstartsWith_iff _ _).mp hhttp
  unfold processLine
  rw [htrim]
  rw [if_neg (by
    intro hnil
    have : ('h' : Char) ∈ (str "http" ++ v) := by
      apply List.mem_append_left
      decide
    rw [hnil] at this
    simp at this)]
  rw [if_neg (by simp [not_extm3u_of_http]),
    if_neg (by simp [not_extinf_of_http]),
    if_pos (lstartsWith_append_self (str "http") v)]
  rw [hst]
  dsimp only
  rw [if_pos hname]

/-- Feeding the generated lines for a clean channel list appends exactly the
expected channels, in order, with sequential ids. -/
theorem parse_genEntries (chs : List GenChannel) : ∀ (st : ParserState),
    st.buffer = [] → (∀ ch ∈ chs, cleanChannel ch = true) →
    parseChunk st ((chs.map genEntry).flatten) =
      { channels := st.channels ++ expectedFrom st.channelId chs
        currentInfo := match chs with
          | [] => st.currentInfo
          | _ :: _ => none
        buffer := []
        channelId := st.channelId + chs.length } := by
  induction chs with
  | nil =>
    intro st hbuf _
    rw [List.map_nil, List.flatten_nil, parseChunk_nil hbuf]
    cases st with
    | mk a b c d =>
      simp only at hbuf
      subst hbuf
      simp [expectedFrom]
  | cons ch rest ih =>
    intro st hbuf hclean
    have hch := hclean ch (by simp)
    obtain ⟨c1, c2, c3, _, _, _, _, _, c9, c10, c11, c12⟩ := cleanChannel_spec hch
    have hurlne : ch.url ≠ [] := by
      intro hnil
      rw [hnil] at c10
      obtain ⟨t, ht'⟩ := (lstartsWith_iff _ _).mp c10
      simp [str] at ht'
    -- info parsed from the generated line
    have hinfo : parseExtInfo (mkInfo (pairsOf ch) (some ch.tvgName)) =
        { tvgName := ch.tvgName
          tvgLogo := if ch.tvgLogo = [] then none else some ch.tvgLogo
          tvgId := if ch.tvgId = [] then none else some ch.tvgId
          tvgCountry := if ch.tvgCountry = [] then none else some ch.tvgCountry
          tvgLanguage := if ch.tvgLanguage = [] then none else some ch.tvgLanguage
          groupTitle := ch.groupTitle } := by
      obtain ⟨R, hR⟩ := pairsOf_cons c2
      rw [parseExtInfo_mkInfo (by rw [hR]; simp) (pairsOf_clean hch)
        (fun t ht' => by
          obtain rfl : ch.tvgName = t := by simpa using ht'
          exact ⟨(cleanVal_spec c1).2.1, (cleanVal_spec c1).2.2.2⟩)]
      rw [lookupPairs_pairsOf_logo,
        lookupPairs_pairsOf_id, lookupPairs_pairsOf_country,
        lookupPairs_pairsOf_language, lookupPairs_pairsOf_group]
      have hspec : specDisplayName (pairsOf ch) (some ch.tvgName) = ch.tvgName := by
        show (if jsTrim ch.tvgName ≠ [] then jsTrim ch.tvgName
          else if ch.tvgName = [] then str "Unknown"
          else jsOrOpt (lookupPairs (pairsOf ch) (str "tvg-name"))
            (str "Unknown")) = ch.tvgName
        rw [if_pos (by rw [c3]; exact c2), c3]
      rw [hspec]
      have hgrp : jsOrOpt (if ch.groupTitle = [] then none else some ch.groupTitle)
          (str "Other") = ch.groupTitle := by
        rw [if_neg c9]
        simp [jsOrOpt, c9]
      rw [hgrp]
    -- '\n' does not occur in the emitted info line
    have hnl1 : '\n' ∉ (str "#EXTINF:" ++ mkInfo (pairsOf ch) (some ch.tvgName)) := by
      intro hm
      rcases List.mem_append.mp hm with hmm | hmm
      · exact absurd hmm (by decide)
      · unfold mkInfo at hmm
        rcases List.mem_append.mp hmm with hmm | hmm
        · rcases List.mem_append.mp hmm with hmm | hmm
          · exact absurd hmm (by decide)
          · refine char_notin_blocksJoin ?_ (by decide) (by decide) (by decide) hmm
            intro p hp
            obtain ⟨hk, hv⟩ := pairsOf_clean hch p hp
            refine ⟨keys_no_nl _ hk, ?_⟩
            intro hmem
            have := (cleanVal_spec hv).2.2.2 _ hmem
            simp [jsIsTerm] at this
        · simp only [optComma, List.mem_cons] at hmm
          rcases hmm with hmm | hmm
          · exact absurd hmm (by decide)
          · have := (cleanVal_spec c1).2.2.2 _ hmm
            simp [jsIsTerm] at this
    have hcr1 : (str "#EXTINF:" ++ mkInfo (pairsOf ch) (some ch.tvgName)).getLast? ≠
        some '\r' := by
      have hlast : (str "#EXTINF:" ++ mkInfo (pairsOf ch) (some ch.tvgName)).getLast? =
          ch.tvgName.getLast? := by
        unfold mkInfo
        rw [List.getLast?_append_of_ne_nil _ (by simp [optComma])]
        rw [List.getLast?_append_of_ne_nil _ (by simp [optComma])]
        show ([','] ++ ch.tvgName).getLast? = _
        rw [List.getLast?_append_of_ne_nil _ c2]
      rw [hlast]
      intro heq
      have := last_of_trimmed c3 _ heq
      simp [jsIsWs] at this
    have hnl2 : '\n' ∉ ch.url := fun hm => c12 _ hm rfl
    have hcr2 : ch.url.getLast? ≠ some '\r' := by
      intro heq
      have := last_of_trimmed c11 _ heq
      simp [jsIsWs] at this
    rw [List.map_cons, List.flatten_cons]
    rw [show genEntry ch ++ (rest.map genEntry).flatten =
      (str "#EXTINF:" ++ mkInfo (pairsOf ch) (some ch.tvgName)) ++
        '\n' :: (ch.url ++ '\n' :: (rest.map genEntry).flatten) from
      genEntry_decomp hch _]
    rw [parseChunk_line _ hbuf hnl1 hcr1]
    rw [processLine_infoLine st hch, hinfo]
    rw [parseChunk_line _ (by exact hbuf) hnl2 hcr2]
    rw [processLine_urlLine rfl (by simpa using c2) c10 c11]
    rw [ih _ (by exact hbuf) (fun x hx => hclean x (List.mem_cons_of_mem _ hx))]
    rw [expectedFrom_cons]
    simp only [ParserState.mk.injEq]
    refine ⟨?_, ?_, trivial, ?_⟩
    · rw [List.append_assoc]
      rfl
    · cases rest <;> rfl
    · simp only [List.length_cons]
      omega

end RoundTripLemmas

section IdLemmas

theorem idsOk_init : idsOk initState := ⟨rfl, rfl⟩

theorem idsOk_append {st : ParserState} (h : idsOk st) (info : ChannelInfo)
    (url : List Char) :
    (st.channels ++ [mkChannel info url st.channelId]).map (fun c => c.id) =
      (List.range (st.channels ++ [mkChannel info url st.channelId]).length).map
        (fun i => str "channel-" ++ natToStr i) := by
  obtain ⟨h1, h2⟩ := h
  rw [List.map_append, h2]
  have hlen : (st.channels ++ [mkChannel info url st.channelId]).length =
      st.channels.length + 1 := by simp
  rw [hlen, List.range_succ, List.map_append]
  congr 1
  simp [mkChannel, h1]

theorem idsOk_processLine {st : ParserState} (h : idsOk st) (l : List Char) :
    idsOk (processLine st l) := by
  unfold processLine
  dsimp only
  by_cases h1 : jsTrim l = []
  · rw [if_pos h1]; exact h
  rw [if_neg h1]
  by_cases h2 : lstartsWith (str "#EXTM3U") (jsTrim l) = true
  · rw [if_pos h2]; exact h
  rw [if_neg h2]
  by_cases h3 : lstartsWith (str "#EXTINF:") (jsTrim l) = true
  · rw [if_pos h3]; exact ⟨h.1, h.2⟩
  rw [if_neg h3]
  by_cases h4 : lstartsWith (str "http") (jsTrim l) = true
  · rw [if_pos h4]
    rcases hci : st.currentInfo with _ | info
    · exact ⟨h.1, h.2⟩
    · dsimp only
      by_cases h5 : info.tvgName ≠ []
      · rw [if_pos h5]
        exact ⟨by simp [h.1], idsOk_append h info _⟩
      · rw [if_neg h5]
        exact ⟨h.1, h.2⟩
  · rw [if_neg h4]; exact h

theorem idsOk_foldl (lines : List (List Char)) :
    ∀ st, idsOk st → idsOk (lines.foldl processLine st) := by
  induction lines with
  | nil => intro st h; exact h
  | cons l ls ih => intro st h; exact ih _ (idsOk_processLine h l)

theorem idsOk_parseChunk {st : ParserState} (h : idsOk st) (chunk : List Char) :
    idsOk (parseChunk st chunk) := by
  unfold parseChunk
  exact idsOk_foldl _ _ h

theorem idsOk_feedAll (chunks : List (List Char)) : idsOk (feedAll chunks) := by
  unfold feedAll
  have : ∀ (cs : List (List Char)) (st : ParserState), idsOk st →
      idsOk (cs.foldl parseChunk st) := by
    intro cs
    induction cs with
    | nil => intro st h; exact h
    | cons c cs ih => intro st h; exact ih _ (idsOk_parseChunk h c)
  exact this chunks initState idsOk_init

theorem idsOk_finalize {st : ParserState} (h : idsOk st) :
    (finalize st).map (fun c => c.id) =
      (List.range (finalize st).length).map
        (fun i => str "channel-" ++ natToStr i) := by
  unfold finalize
  dsimp only
  split
  · split
    · split
      · split
        · next info _ _ => exact idsOk_append h info _
        · exact h.2
      · exact h.2
    · exact h.2
  · exact h.2

end IdLemmas

section GroupLemmas

theorem mem_dedupFold (l : List (List Char)) :
    ∀ (acc : List (List Char)) (x : List Char),
      (x ∈ l.foldl (fun acc g => if g ∈ acc then acc else acc ++ [g]) acc) ↔
        x ∈ acc ∨ x ∈ l := by
  induction l with
  | nil => simp
  | cons g gs ih =>
    intro acc x
    rw [List.foldl_cons, ih]
    by_cases hg : g ∈ acc
    · rw [if_pos hg]
      constructor
      · rintro (h | h)
        · exact Or.inl h
        · exact Or.inr (List.mem_cons_of_mem _ h)
      · rintro (h | h)
        · exact Or.inl h
        · rcases List.mem_cons.mp h with rfl | h
          · exact Or.inl hg
          · exact Or.inr h
    · rw [if_neg hg]
      simp only [List.mem_append, List.mem_singleton, List.mem_cons]
      tauto

theorem mem_firstDedup {l : List (List Char)} {x : List Char} :
    x ∈ firstDedup l ↔ x ∈ l := by
  unfold firstDedup
  rw [mem_dedupFold]
  simp

theorem addGroup_summOf (pre : List (List Char)) (g : List Char) :
    addGroup (summOf pre) g = summOf (pre ++ [g]) := by
  have hdedup : firstDedup (pre ++ [g]) =
      if g ∈ firstDedup pre then firstDedup pre else firstDedup pre ++ [g] := by
    unfold firstDedup
    rw [List.foldl_append]
    rfl
  by_cases hg : g ∈ firstDedup pre
  · have hany : (summOf pre).any (fun p => p.1 = g) = true := by
      apply List.any_eq_true.mpr
      exact ⟨(g, pre.count g), by
        unfold summOf
        exact List.mem_map_of_mem _ hg, by simp⟩
    unfold addGroup
    rw [if_pos hany]
    unfold summOf
    rw [hdedup, if_pos hg, List.map_map]
    apply List.map_congr_left
    intro x _
    by_cases hx : x = g
    · subst hx
      simp [List.count_append]
    · simp only [Function.comp_apply]
      rw [if_neg (by simpa using hx)]
      rw [List.count_append]
      have hcnt : List.count x [g] = 0 := by
        rw [List.count_singleton]
        simp only [beq_iff_eq, ite_eq_right_iff]
        intro hgx
        exact absurd hgx.symm hx
      rw [hcnt, Nat.add_zero]
  · have hany : (summOf pre).any (fun p => p.1 = g) = false := by
      rw [List.any_eq_false]
      intro p hp
      unfold summOf at hp
      obtain ⟨x, hx, rfl⟩ := List.mem_map.mp hp
      simp only [decide_eq_true_eq]
      intro he
      exact hg (he ▸ hx)
    unfold addGroup
    rw [if_neg (by simp [hany])]
    unfold summOf
    rw [hdedup, if_neg hg, List.map_append]
    congr 1
    · apply List.map_congr_left
      intro x hx
      have hxg : x ≠ g := fun he => hg (he ▸ hx)
      rw [List.count_append]
      have hcnt : List.count x [g] = 0 := by
        rw [List.count_singleton]
        simp only [beq_iff_eq, ite_eq_right_iff]
        intro hgx
        exact absurd hgx.symm hxg
      rw [hcnt, Nat.add_zero]
    · have hgpre : g ∉ pre := fun hm => hg (mem_firstDedup.mpr hm)
      simp [List.count_append, List.count_eq_zero.mpr hgpre]

theorem computeGroups_summOf_aux (gs : List (List Char)) :
    ∀ pre : List (List Char),
      gs.foldl addGroup (summOf pre) = summOf (pre ++ gs) := by
  induction gs with
  | nil => intro pre; simp
  | cons g gs ih =>
    intro pre
    rw [List.foldl_cons, addGroup_summOf, ih]
    rw [List.append_assoc]
    rfl

theorem computeGroups_eq (cs : List M3UChannel) :
    computeGroups cs = summOf (cs.map effGroup) := by
  unfold computeGroups
  have h0 : (summOf [] : List (List Char × Nat)) = [] := rfl
  rw [← h0, computeGroups_summOf_aux]
  rfl

end GroupLemmas

section RelayLemmas

theorem toLower_digit {c : Char} (h : c.isDigit = true) : c.toLower = c := by
  unfold Char.isDigit at h
  simp only [Bool.and_eq_true, decide_eq_true_eq] at h
  unfold Char.toLower
  dsimp only
  rw [if_neg]
  intro hc
  obtain ⟨h1, h2⟩ := hc
  have h4 : c.val.toNat ≤ 57 := h.2
  unfold Char.toNat at h1
  omega

theorem toLower_digit_dot {host : List Char}
    (h : host.all (fun c => c.isDigit || c = '.') = true) :
    host.map Char.toLower = host := by
  have hall : ∀ c ∈ host, Char.toLower c = c := by
    intro c hc
    have := List.all_eq_true.mp h c hc
    simp only [Bool.or_eq_true, decide_eq_true_eq] at this
    rcases this with hd | hdot
    · exact toLower_digit hd
    · rw [hdot]
      decide
  calc host.map Char.toLower = host.map id := List.map_congr_left hall
  _ = host := List.map_id host

theorem blocked_of_first_zero {host : List Char}
    (hchars : host.all (fun c => c.isDigit || c = '.') = true)
    (hshape : dottedQuadShape host = true)
    (h0 : ((host.splitOn '.').map digitsVal).getD 0 0 = 0) :
    isBlockedHostname host = true := by
  unfold isBlockedHostname
  dsimp only
  rw [toLower_digit_dot hchars]
  repeat' split
  all_goals simp_all

theorem blocked_of_overlarge_octet {host : List Char}
    (hchars : host.all (fun c => c.isDigit || c = '.') = true)
    (hshape : dottedQuadShape host = true)
    (hbig : ((host.splitOn '.').map digitsVal).any (fun p => p > 255) = true) :
    isBlockedHostname host = true := by
  unfold isBlockedHostname
  dsimp only
  rw [toLower_digit_dot hchars]
  repeat' split
  all_goals simp_all

end RelayLemmas

section FinalizeLemmas

theorem finalize_eq (st : ParserState) :
    finalize st = st.channels ++ trailingCompletable st := by
  unfold finalize trailingCompletable
  dsimp only
  by_cases hh : lstartsWith (str "http") (jsTrim st.buffer) = true
  · have hne : ¬ jsTrim st.buffer = [] := by
      intro h0
      rw [h0] at hh
      exact absurd hh (by decide)
    rw [if_pos hne, if_pos hh]
    rcases hci : st.currentInfo with _ | info
    · simp
    · dsimp only
      by_cases hn : info.tvgName ≠ []
      · rw [if_pos hn, if_pos ⟨hh, hn⟩]
      · rw [if_neg hn, if_neg (fun hand => hn hand.2)]
        simp
  · rcases hci : st.currentInfo with _ | info
    · dsimp only
      by_cases hne : jsTrim st.buffer = []
      · rw [if_neg (by simp [hne])]
        simp
      · rw [if_pos hne, if_neg hh]
        simp
    · dsimp only
      by_cases hne : jsTrim st.buffer = []
      · rw [if_neg (by simp [hne]), if_neg (fun hand => hh hand.1)]
        simp
      · rw [if_pos hne, if_neg hh, if_neg (fun hand => hh hand.1)]
        simp

theorem finalize_info_discarded {st : ParserState}
    (h : lstartsWith (str "#") (jsTrim st.buffer) = true) :
    finalize st = st.channels := by
  obtain ⟨t, ht⟩ := (lstartsWith_iff _ _).mp h
  have hh : lstartsWith (str "http") (jsTrim st.buffer) = false := by
    rw [ht]
    show lstartsWith ('h' :: 't' :: 't' :: 'p' :: []) ('#' :: t) = false
    exact lstartsWith_cons_false (by decide)
  unfold finalize
  dsimp only
  by_cases hne : jsTrim st.buffer = []
  · rw [if_neg (by simp [hne])]
  · rw [if_pos hne, if_neg (by simp [hh])]

theorem jsOrOpt_ne_nil {a : Option (List Char)} {b : List Char} (h : b ≠ []) :
    jsOrOpt a b ≠ [] := by
  unfold jsOrOpt
  rcases a with _ | v
  · exact h
  · dsimp only
    split
    · exact h
    · assumption

end FinalizeLemmas

section Claims

/-- Claim C1 states that any byte partition of a playlist, including one
splitting a multi-byte UTF-8 character, parses to the same entry list as the
whole text fed at once.  The POST pipeline constructs a FRESH `TextDecoder`
for every chunk, so a partition splitting the two-byte character `Ç`
(0xC3 0x87) drops the held lead byte and decodes the orphaned continuation
byte to U+FFFD, corrupting the URL of the final entry: the two runs differ. -/
theorem pipeline_chunk_split_divergence :
    pipeline [bugBytes.take 30, bugBytes.drop 30] ≠ pipeline [bugBytes] ∧
    (pipeline [bugBytes]).map (fun c => c.url) = [str "http://x" ++ ['Ç']] ∧
    (pipeline [bugBytes.take 30, bugBytes.drop 30]).map (fun c => c.url) =
      [str "http://x" ++ ['�']] := by decide

/-- Claim C2: every relay request targeting `127.0.0.1`, `10.1.2.3`,
`192.168.1.1`, `172.20.0.5`, `169.254.1.1`, `localhost`, or any dotted-quad
with first octet `0`, is answered `blockedUrl` regardless of what the
upstream would return (so no outbound request is needed), while the public
literal `93.184.216.34` is never rejected by the hostname check. -/
theorem ssrf_rejection_table :
    (∀ s, relayGET ⟨str "http:", str "127.0.0.1"⟩ s = .blockedUrl) ∧
    (∀ s, relayGET ⟨str "http:", str "10.1.2.3"⟩ s = .blockedUrl) ∧
    (∀ s, relayGET ⟨str "http:", str "192.168.1.1"⟩ s = .blockedUrl) ∧
    (∀ s, relayGET ⟨str "http:", str "172.20.0.5"⟩ s = .blockedUrl) ∧
    (∀ s, relayGET ⟨str "http:", str "169.254.1.1"⟩ s = .blockedUrl) ∧
    (∀ s, relayGET ⟨str "http:", str "localhost"⟩ s = .blockedUrl) ∧
    (∀ host s, host.all (fun c => c.isDigit || c = '.') = true →
      dottedQuadShape host = true →
      ((host.splitOn '.').map digitsVal).getD 0 0 = 0 →
      relayGET ⟨str "http:", host⟩ s = .blockedUrl) ∧
    (∀ s, relayGET ⟨str "http:", str "93.184.216.34"⟩ s ≠ .blockedUrl) := by
  refine ⟨?_, ?_, ?_, ?_, ?_, ?_, ?_, ?_⟩
  · intro s; unfold relayGET; rw [if_neg (by decide), if_pos (by decide)]
  · intro s; unfold relayGET; rw [if_neg (by decide), if_pos (by decide)]
  · intro s; unfold relayGET; rw [if_neg (by decide), if_pos (by decide)]
  · intro s; unfold relayGET; rw [if_neg (by decide), if_pos (by decide)]
  · intro s; unfold relayGET; rw [if_neg (by decide), if_pos (by decide)]
  · intro s; unfold relayGET; rw [if_neg (by decide), if_pos (by decide)]
  · intro host s hchars hshape h0
    unfold relayGET
    rw [if_neg (not_not_intro (Or.inl rfl)),
      if_pos (blocked_of_first_zero hchars hshape h0)]
  · intro s
    unfold relayGET
    rw [if_neg (by decide), if_neg (by decide)]
    split <;> simp

/-- Witness for claim C2 at the dotted-quad `0.1.2.3`. -/
theorem ssrf_rejection_table_witness :
    relayGET ⟨str "http:", str "0.1.2.3"⟩ 200 = .blockedUrl :=
  ssrf_rejection_table.2.2.2.2.2.2.1 (str "0.1.2.3") 200
    (by decide) (by decide) (by decide)

/-- Counterexample to claim C3 as stated: on the info line
`-1 tvg-name="MyName"` the name attribute is present and there is no trailing
display text, yet the code resolves the display name to the literal "Unknown"
— the attribute is NOT used as the fallback, because the missing comma-match
already defaulted the display name to the (truthy) string "Unknown" before
the attribute is consulted. -/
theorem display_name_attr_fallback_counterexample :
    findAttr (str "tvg-name") (stripDuration (str "-1 tvg-name=\"MyName\"")) =
      some (str "MyName") ∧
    (parseExtInfo (str "-1 tvg-name=\"MyName\"")).tvgName = str "Unknown" ∧
    str "Unknown" ≠ str "MyName" := by decide

/-- Claim C3 (amended): for an info line with at least one clean attribute
block, trailing display text that trims non-blank wins over the name
attribute; a comma followed by blank-but-nonempty text falls back to the name
attribute; with no comma-match at all (no trailing part, or a bare final
comma) the display name is the literal "Unknown" even when a name attribute
is present; and in every case the entry still has a non-empty name and is not
dropped. -/
theorem display_name_precedence (pairs : List (List Char × List Char))
    (topt : Option (List Char)) (hpairs : pairs ≠ [])
    (hps : ∀ p ∈ pairs, p.1 ∈ KEYS ∧ cleanVal p.2 = true)
    (ht : ∀ t, topt = some t → cleanVal t = true) :
    (parseExtInfo (mkInfo pairs topt)).tvgName = specDisplayName pairs topt ∧
    (parseExtInfo (mkInfo pairs topt)).tvgName ≠ [] := by
  have ht' : ∀ t, topt = some t → ('=' ∉ t ∧ ∀ c ∈ t, jsIsTerm c = false) := by
    intro t htt
    obtain ⟨-, he, -, hterm⟩ := cleanVal_spec (ht t htt)
    exact ⟨he, hterm⟩
  rw [parseExtInfo_mkInfo hpairs hps ht']
  refine ⟨rfl, ?_⟩
  cases topt with
  | none =>
    show str "Unknown" ≠ []
    decide
  | some t =>
    show (if jsTrim t ≠ [] then jsTrim t
      else if t = [] then str "Unknown"
      else jsOrOpt (lookupPairs pairs (str "tvg-name")) (str "Unknown")) ≠ []
    split
    · assumption
    · split
      · decide
      · exact jsOrOpt_ne_nil (by decide)

/-- Witness for claim C3 at a name attribute with blank trailing text. -/
theorem display_name_precedence_witness :
    (parseExtInfo (mkInfo [(str "tvg-name", str "Name")] (some [' ']))).tvgName =
      specDisplayName [(str "tvg-name", str "Name")] (some [' ']) ∧
    (parseExtInfo (mkInfo [(str "tvg-name", str "Name")] (some [' ']))).tvgName ≠ [] :=
  display_name_precedence _ _ (by decide) (by decide)
    (fun t htt => by
      obtain rfl : [' '] = t := by simpa using htt
      decide)

/-- Counterexample to claim C4 as stated: after a fully newline-terminated
feed the trailing buffer is empty, so nothing is still completable from it,
yet `finalize` returns a non-empty list — it returns the whole accumulated
channel list, not just the newly completed entries. -/
theorem finish_trailing_only_counterexample :
    (feedAll [str "#EXTM3U\n#EXTINF:-1 tvg-name=\"A\",A\nhttp://x\n"]).buffer = [] ∧
    finalize (feedAll [str "#EXTM3U\n#EXTINF:-1 tvg-name=\"A\",A\nhttp://x\n"]) ≠ [] := by
  decide

/-- Claim C4 (amended): `finalize` returns the full accumulated channel list
followed by exactly the entries still completable from the trailing buffered
content — one entry when the trimmed trailing line is a URL line and a
pending accumulator with a display name exists, none otherwise — and an
unterminated trailing info line (any trailing line starting with `#`) is
discarded, never finalized. -/
theorem finish_returns_accumulated_list :
    (∀ st : ParserState, finalize st = st.channels ++ trailingCompletable st) ∧
    (∀ st : ParserState, lstartsWith (str "#") (jsTrim st.buffer) = true →
      finalize st = st.channels) :=
  ⟨finalize_eq, fun _ h => finalize_info_discarded h⟩

/-- Witness for claim C4: a buffered unterminated info line is discarded. -/
theorem finish_returns_accumulated_witness :
    finalize trailingInfoState = trailingInfoState.channels :=
  finish_returns_accumulated_list.2 trailingInfoState (by decide)

/-- Counterexample to claim C5 as stated: a channel with the non-empty
display name `A,B` and the valid URL `http://x` does not round-trip — the
display-name capture starts at the FIRST comma of the info line, which here
sits inside the emitted `tvg-name` attribute value. -/
theorem roundtrip_comma_counterexample :
    commaChannel.tvgName ≠ [] ∧
    lstartsWith (str "http") commaChannel.url = true ∧
    (finalize (parseChunk initState (generateM3UContent [commaChannel]))).map
      (fun c => c.tvgName) ≠ [commaChannel.tvgName] := by decide

/-- Claim C5 (amended): for every channel list whose display names, group
names and attribute values contain no double quote, comma, equals sign or
line terminator, with non-empty already-trimmed display names, non-empty
groups, and trimmed newline-free URLs starting with the `http` token,
parsing the generated text reproduces every channel in order: same url,
group and display name, ids `channel-0 …`, and each optional attribute
round-trips exactly when non-empty. -/
theorem generate_parse_roundtrip (chs : List GenChannel)
    (h : ∀ ch ∈ chs, cleanChannel ch = true) :
    finalize (parseChunk initState (generateM3UContent chs)) =
      expectedFrom 0 chs := by
  unfold generateM3UContent
  rw [show str "#EXTM3U\n" ++ (chs.map genEntry).flatten =
      str "#EXTM3U" ++ '\n' :: (chs.map genEntry).flatten by
    rw [show str "#EXTM3U\n" = str "#EXTM3U" ++ ['\n'] from by decide]
    simp]
  rw [parseChunk_line _ rfl (by decide) (by decide)]
  rw [show processLine initState (str "#EXTM3U") = initState from by decide]
  rw [parse_genEntries chs initState rfl h]
  unfold finalize
  dsimp only
  rw [if_neg (by decide)]
  show [] ++ expectedFrom 0 chs = expectedFrom 0 chs
  simp

/-- Witness for claim C5 at a concrete clean channel. -/
theorem generate_parse_roundtrip_witness :
    finalize (parseChunk initState (generateM3UContent [sampleChannel])) =
      expectedFrom 0 [sampleChannel] :=
  generate_parse_roundtrip [sampleChannel] (by decide)

/-- Claim C6: for every chunk sequence fed to one parser run, the ids of the
channel list returned by `finalize` are exactly `channel-0 … channel-(N-1)`
in encounter order — dense, zero-based, without gaps or repeats — regardless
of how many input lines were skipped. -/
theorem channel_ids_dense (chunks : List (List Char)) :
    (finalize (feedAll chunks)).map (fun c => c.id) =
      (List.range (finalize (feedAll chunks)).length).map
        (fun i => str "channel-" ++ natToStr i) :=
  idsOk_finalize (idsOk_feedAll chunks)

/-- Claim C7: an info line with no `group-title` attribute is assigned the
sentinel group "Other", and for every channel list the POST group summary has
one `(name, count)` pair per distinct effective group, in first-encounter
order, each count being the number of channels carrying that group. -/
theorem group_sentinel_and_summary :
    (∀ line, findAttr (str "group-title") (stripDuration line) = none →
      (parseExtInfo line).groupTitle = str "Other") ∧
    (∀ cs : List M3UChannel, computeGroups cs = summOf (cs.map effGroup)) := by
  constructor
  · intro line h
    unfold parseExtInfo
    dsimp only
    rw [h]
    rfl
  · exact computeGroups_eq

/-- Witness for claim C7 at a concrete attribute-free info line. -/
theorem group_sentinel_witness :
    (parseExtInfo (str "-1 tvg-name=\"A\",A")).groupTitle = str "Other" :=
  group_sentinel_and_summary.1 (str "-1 tvg-name=\"A\",A") (by decide)

/-- Claim C8: once a relayed request passes the scheme and hostname gates,
an upstream status outside 2xx (and ≠ 206) makes the relay answer a gateway
error embedding that status, and the upstream body is streamed through
exactly when the status is 2xx or 206. -/
theorem relay_upstream_status_gate (url : UrlModel) (s : Nat)
    (hp : url.protocol = str "http:" ∨ url.protocol = str "https:")
    (hb : isBlockedHostname url.hostname = false) :
    (¬(200 ≤ s ∧ s ≤ 299) → s ≠ 206 → relayGET url s = .gatewayError s) ∧
    (relayGET url s = .streamed s ↔ ((200 ≤ s ∧ s ≤ 299) ∨ s = 206)) := by
  unfold relayGET
  rw [if_neg (not_not_intro hp), if_neg (by simp [hb])]
  constructor
  · intro h1 h2
    rw [if_pos ⟨h1, h2⟩]
  · constructor
    · intro h
      by_cases hc : ¬(200 ≤ s ∧ s ≤ 299) ∧ s ≠ 206
      · rw [if_pos hc] at h
        exact absurd h (by simp)
      · tauto
    · intro h
      rw [if_neg (by tauto)]

/-- Witness for claim C8: a 404 upstream becomes a gateway error. -/
theorem relay_upstream_status_gate_witness :
    relayGET ⟨str "http:", str "example.com"⟩ 404 = .gatewayError 404 :=
  (relay_upstream_status_gate ⟨str "http:", str "example.com"⟩ 404
    (Or.inl rfl) (by decide)).1 (by omega) (by omega)

/-- Counterexample to claim C9 as stated: a present, NON-empty upload whose
name does not end in `.m3u`/`.m3u8` is also a hard failure — the claim's
"only hard failure is a structurally empty or absent input source" is too
narrow. -/
theorem post_rejects_nonempty_file :
    postParse (some txtFile) = .clientError .invalidFormat ∧
    txtFile.content ≠ [] := by decide

/-- Claim C9 (amended): the POST parse operation's hard failures are exactly
an absent file, a wrong extension, or an oversized file, each reported with a
client error before parsing; every upload passing these gates parses to a
result (the parse itself is total), and any trimmed non-blank line that is
neither the header, an info line, nor a URL line is skipped leaving the
parser state unchanged. -/
theorem post_error_gates :
    (postParse none = .clientError .missingFile) ∧
    (∀ f : UploadFile,
      (lendsWith (str ".m3u") (f.name.map Char.toLower) = true ∨
       lendsWith (str ".m3u8") (f.name.map Char.toLower) = true) →
      f.content.length ≤ 50 * 1024 * 1024 →
      postParse (some f) = .ok (runPipeline f.content)) ∧
    (∀ (st : ParserState) (line : List Char), jsTrim line ≠ [] →
      lstartsWith (str "#EXTM3U") (jsTrim line) = false →
      lstartsWith (str "#EXTINF:") (jsTrim line) = false →
      lstartsWith (str "http") (jsTrim line) = false →
      processLine st line = st) := by
  refine ⟨rfl, ?_, ?_⟩
  · intro f h1 h2
    unfold postParse
    dsimp only
    rw [if_neg (not_not_intro h1), if_neg (by omega)]
  · intro st line h1 h2 h3 h4
    unfold processLine
    dsimp only
    rw [if_neg h1, if_neg (by simp [h2]), if_neg (by simp [h3]),
      if_neg (by simp [h4])]

/-- Witness for claim C9: a small valid `.M3U` upload parses successfully. -/
theorem post_error_gates_witness :
    postParse (some m3uFile) = .ok (runPipeline m3uFile.content) :=
  post_error_gates.2.1 m3uFile (by decide) (by decide)

/-- Claim C10: every hostname of dotted-quad shape (four dot-separated runs
of one to three digits) with some component above 255 — such as `999.1.2.3`
— is classified blocked by the SSRF guard, so the relay rejects it for every
possible upstream status, before any outbound request. -/
theorem malformed_quad_blocked (host : List Char) (s : Nat)
    (hchars : host.all (fun c => c.isDigit || c = '.') = true)
    (hshape : dottedQuadShape host = true)
    (hbig : ((host.splitOn '.').map digitsVal).any (fun p => p > 255) = true) :
    isBlockedHostname host = true ∧
    relayGET ⟨str "http:", host⟩ s = .blockedUrl := by
  have hblock := blocked_of_overlarge_octet hchars hshape hbig
  refine ⟨hblock, ?_⟩
  unfold relayGET
  rw [if_neg (not_not_intro (Or.inl rfl)), if_pos hblock]

/-- Witness for claim C10 at `999.1.2.3`. -/
theorem malformed_quad_blocked_witness :
    isBlockedHostname (str "999.1.2.3") = true ∧
    relayGET ⟨str "http:", str "999.1.2.3"⟩ 200 = .blockedUrl :=
  malformed_quad_blocked (str "999.1.2.3") 200 (by decide) (by decide) (by decide)

end Claims
example :
    (finalize (feedAll [str "#EXTM3U\n#EXTINF:-1 tvg-name=\"A\" group-title=\"G1\",A\nhttp://x/a\n#EXTINF:-1 tvg-name=\"B\",B\nhttp://x/b\n"])).map (fun c => c.tvgName) =
    [str "A", str "B"] := by decide

example :
    (finalize (feedAll [str "#EXTM3U\n#EXTINF:-1 tvg-name=\"A\" group-title=\"G1\",A\nhttp://x/a\n"])).map (fun c => (c.id, c.groupTitle)) =
    [(str "channel-0", str "G1")] := by decide

example : (parseExtInfo (str "-1 tvg-name=\"MyName\"")).tvgName = str "Unknown" := by decide

example : (parseExtInfo (str "-1,Plain")).tvgName = str "Unknown" := by decide

example : (parseExtInfo (str "-1 tvg-name=\"N\",  ")).tvgName = str "N" := by decide
